import Mathlib

/-!
Shallow embedding of `pdf_to_excel_access.py` (weekly-report repository):
the country alias table, whole-word case-insensitive matching (Python
`re.search`/`re.sub` with `\b...\b` and `re.I`), description cleaning, the
word-stream incident scanner, and the cross-document aggregation that
produces the six output tables.  Strings are modelled through their
character lists; Python `\s`, `\d` and `\w` are modelled at ASCII level,
matching the ASCII report text the program consumes.
-/

set_option maxRecDepth 100000

namespace WeeklyReport

/-- ASCII word character: Python regex `\w` (letters, digits, underscore). -/
def isWordChar (c : Char) : Bool := c.isAlphanum || c == '_'

/-- ASCII whitespace as matched by Python `\s`: space, tab, newline,
carriage return, vertical tab, form feed. -/
def isWS (c : Char) : Bool :=
  c == ' ' || c == '\t' || c == '\n' || c == '\r' || c.val == 11 || c.val == 12

/-- Word-char status of the character on one side of a position
(`none` = beyond the ends of the text). -/
def bOpt : Option Char → Bool
  | none => false
  | some c => isWordChar c

/-- Python regex `\b`: a word boundary lies between two positions iff their
word-char statuses differ. -/
def boundaryB (l r : Option Char) : Bool := bOpt l != bOpt r

/-- Case-insensitive character equality (`re.I`). -/
def ciEq (a b : Char) : Bool := a.toLower == b.toLower

/-- Case-insensitive "starts with" for the literal pattern. -/
def startsWithCI : List Char → List Char → Bool
  | [], _ => true
  | _ :: _, [] => false
  | k :: ks, c :: cs => ciEq k c && startsWithCI ks cs

/-- One attempted match of the pattern `\b key \b` (with `key = k :: ks` a
nonempty literal) at the current position of `t`, where `left` is the
character just before that position. -/
def matchHere (k : Char) (ks : List Char) (left : Option Char) (t : List Char) : Bool :=
  boundaryB left t.head? && startsWithCI (k :: ks) t &&
    boundaryB ((t.take (ks.length + 1)).getLast?) ((t.drop (ks.length + 1)).head?)

/-- `re.search` of `\b key \b` with `re.I`: scan every position left to
right. -/
def searchFrom (k : Char) (ks : List Char) : Option Char → List Char → Bool
  | _, [] => false
  | left, c :: cs => matchHere k ks left (c :: cs) || searchFrom k ks (some c) cs

/-- Fuel-driven worker for `subFrom` (the fuel, at least the text length,
only forces structural recursion; it never runs out on the lengths
`subFrom` passes). -/
def subFromAux (k : Char) (ks : List Char) : Nat → Option Char → List Char → List Char
  | 0, _, t => t
  | _ + 1, _, [] => []
  | fuel + 1, left, c :: cs =>
    if matchHere k ks left (c :: cs) then
      subFromAux k ks fuel (((c :: cs).take (ks.length + 1)).getLast?)
        ((c :: cs).drop (ks.length + 1))
    else c :: subFromAux k ks fuel (some c) cs

/-- `re.sub(\b key \b, "", text, re.I)`: delete every non-overlapping
leftmost match.  Boundary checks after a deletion look at the characters of
the original text, exactly as the regex engine does. -/
def subFrom (k : Char) (ks : List Char) (left : Option Char) (t : List Char) : List Char :=
  subFromAux k ks t.length left t

theorem subFromAux_congr (k : Char) (ks : List Char) :
    ∀ f g (l : Option Char) (t : List Char), t.length ≤ f → t.length ≤ g →
      subFromAux k ks f l t = subFromAux k ks g l t := by
  intro f
  induction f with
  | zero =>
    intro g l t hf _
    have ht : t = [] := List.length_eq_zero.1 (Nat.le_zero.1 hf)
    subst ht
    cases g <;> rfl
  | succ f ih =>
    intro g l t _ hg
    cases t with
    | nil => cases g <;> rfl
    | cons c cs =>
      cases g with
      | zero => exact absurd hg (by simp)
      | succ g =>
        show subFromAux k ks (f + 1) l (c :: cs) = subFromAux k ks (g + 1) l (c :: cs)
        simp only [subFromAux]
        rename_i hf
        split
        · apply ih
          · calc ((c :: cs).drop (ks.length + 1)).length ≤ cs.length := by
                  simp [List.length_drop]
              _ ≤ f := by simpa using hf
          · calc ((c :: cs).drop (ks.length + 1)).length ≤ cs.length := by
                  simp [List.length_drop]
              _ ≤ g := by simpa using hg
        · rw [ih g (some c) cs (by simpa using hf) (by simpa using hg)]

theorem subFrom_nil (k : Char) (ks : List Char) (l : Option Char) :
    subFrom k ks l [] = [] := rfl

/-- The defining step of `subFrom`, free of the fuel parameter. -/
theorem subFrom_cons (k : Char) (ks : List Char) (l : Option Char) (c : Char)
    (cs : List Char) :
    subFrom k ks l (c :: cs) =
      if matchHere k ks l (c :: cs) then
        subFrom k ks (((c :: cs).take (ks.length + 1)).getLast?)
          ((c :: cs).drop (ks.length + 1))
      else c :: subFrom k ks (some c) cs := by
  show subFromAux k ks (cs.length + 1) l (c :: cs) = _
  simp only [subFromAux, subFrom]
  split
  · exact subFromAux_congr k ks cs.length _ _ _ (by simp [List.length_drop]) (le_refl _)
  · rfl

/-- String-level `re.search(r"\b" + re.escape(key) + r"\b", text, re.I)`.
All keys used by the program are nonempty literals. -/
def searchWordCI (key text : String) : Bool :=
  match key.data with
  | [] => false
  | k :: ks => searchFrom k ks none text.data

/-- String-level `re.sub(r"\b" + re.escape(key) + r"\b", "", text, re.I)`. -/
def subWordCI (key text : String) : String :=
  match key.data with
  | [] => text
  | k :: ks => ⟨subFrom k ks none text.data⟩

/-- `re.sub(r"\s+", " ", ...)` as a one-pass scan; the flag records whether
the scanner is inside a whitespace run whose single replacement space has
already been emitted. -/
def collapseAux : Bool → List Char → List Char
  | _, [] => []
  | inWS, c :: cs =>
    if isWS c then
      if inWS then collapseAux true cs else ' ' :: collapseAux true cs
    else c :: collapseAux false cs

/-- `re.sub(r"\s+", " ", ...)`: collapse each whitespace run to one space. -/
def collapseWSL (t : List Char) : List Char := collapseAux false t

/-- Python `str.strip()`: drop whitespace from both ends. -/
def stripL (t : List Char) : List Char :=
  ((t.dropWhile isWS).reverse.dropWhile isWS).reverse

/-- Python `str.endswith((".", "!", "?"))`. -/
def endsPunct (t : List Char) : Bool :=
  match t.getLast? with
  | some c => c == '.' || c == '!' || c == '?'
  | none => false

/-! ## Country alias table (`build_country_database`) -/

/-- The hand-curated abbreviation entries of `build_country_database`. -/
def abbreviationMap : List (String × String) :=
  [("US", "United States"), ("USA", "United States"), ("U.S.", "United States"),
   ("UK", "United Kingdom"), ("U.K.", "United Kingdom"),
   ("UAE", "United Arab Emirates"), ("KSA", "Saudi Arabia"), ("MY", "Malaysia")]

/-- The demonym entries of `build_country_database`, in source order. -/
def demonymEntries : List (String × String) :=
  [("Mexican", "Mexico"), ("Brazilian", "Brazil"), ("German", "Germany"),
   ("Colombian", "Colombia"), ("Thai", "Thailand"), ("Malaysian", "Malaysia"),
   ("Indonesian", "Indonesia"), ("Irish", "Ireland"), ("Spanish", "Spain"),
   ("Portuguese", "Portugal"), ("South African", "South Africa"),
   ("Moroccan", "Morocco"), ("Chinese", "China"), ("Indian", "India"),
   ("South Korean", "South Korea"), ("American", "United States"),
   ("British", "United Kingdom"), ("Vietnamese", "Vietnam"),
   ("Russian", "Russian Federation"), ("French", "France"),
   ("Israeli", "Israel"), ("Israelis", "Israel"), ("Romanian", "Romania"),
   ("Canadian", "Canada"), ("Venezuela", "Venezuela")]

/-- Modelled from the spec: the ISO country-name table supplied by the
external `pycountry.countries` data set (each entry is added as a
self-mapping alias, "ISO country names plus curated
abbreviations/demonyms", "aliases number in the low hundreds").  The data
set itself is not part of the repository; the list below reproduces the
ISO 3166-1 English short names. -/
def pycountryNames : List String :=
  ["Afghanistan", "Albania", "Algeria", "Andorra", "Angola",
   "Antigua and Barbuda", "Argentina", "Armenia", "Australia", "Austria",
   "Azerbaijan", "Bahamas", "Bahrain", "Bangladesh", "Barbados", "Belarus",
   "Belgium", "Belize", "Benin", "Bhutan", "Bolivia, Plurinational State of",
   "Bosnia and Herzegovina", "Botswana", "Brazil", "Brunei Darussalam",
   "Bulgaria", "Burkina Faso", "Burundi", "Cabo Verde", "Cambodia",
   "Cameroon", "Canada", "Central African Republic", "Chad", "Chile",
   "China", "Colombia", "Comoros", "Congo", "Costa Rica", "Croatia", "Cuba",
   "Cyprus", "Czechia", "Denmark", "Djibouti", "Dominica",
   "Dominican Republic", "Ecuador", "Egypt", "El Salvador",
   "Equatorial Guinea", "Eritrea", "Estonia", "Eswatini", "Ethiopia",
   "Fiji", "Finland", "France", "Gabon", "Gambia", "Georgia", "Germany",
   "Ghana", "Greece", "Grenada", "Guatemala", "Guinea", "Guinea-Bissau",
   "Guyana", "Haiti", "Honduras", "Hungary", "Iceland", "India",
   "Indonesia", "Iran, Islamic Republic of", "Iraq", "Ireland", "Israel",
   "Italy", "Jamaica", "Japan", "Jordan", "Kazakhstan", "Kenya", "Kiribati",
   "Korea, Republic of", "Kuwait", "Kyrgyzstan", "Latvia", "Lebanon",
   "Lesotho", "Liberia", "Libya", "Liechtenstein", "Lithuania",
   "Luxembourg", "Madagascar", "Malawi", "Malaysia", "Maldives", "Mali",
   "Malta", "Marshall Islands", "Mauritania", "Mauritius", "Mexico",
   "Micronesia, Federated States of", "Moldova, Republic of", "Monaco",
   "Mongolia", "Montenegro", "Morocco", "Mozambique", "Myanmar", "Namibia",
   "Nauru", "Nepal", "Netherlands", "New Zealand", "Nicaragua", "Niger",
   "Nigeria", "North Macedonia", "Norway", "Oman", "Pakistan", "Palau",
   "Panama", "Papua New Guinea", "Paraguay", "Peru", "Philippines",
   "Poland", "Portugal", "Qatar", "Romania", "Russian Federation",
   "Rwanda", "Saint Kitts and Nevis", "Saint Lucia", "Samoa", "San Marino",
   "Sao Tome and Principe", "Saudi Arabia", "Senegal", "Serbia",
   "Seychelles", "Sierra Leone", "Singapore", "Slovakia", "Slovenia",
   "Solomon Islands", "Somalia", "South Africa", "South Sudan", "Spain",
   "Sri Lanka", "Sudan", "Suriname", "Sweden", "Switzerland",
   "Syrian Arab Republic", "Tajikistan", "Tanzania, United Republic of",
   "Thailand", "Timor-Leste", "Togo", "Tonga", "Trinidad and Tobago",
   "Tunisia", "Turkey", "Turkmenistan", "Tuvalu", "Uganda", "Ukraine",
   "United Arab Emirates", "United Kingdom", "United States", "Uruguay",
   "Uzbekistan", "Vanuatu", "Venezuela, Bolivarian Republic of",
   "Viet Nam", "Yemen", "Zambia", "Zimbabwe"]

/-- Python dict assignment `mapping[k] = v`: overwrite an existing key,
otherwise append preserving insertion order. -/
def dictInsert (m : List (String × String)) (k v : String) : List (String × String) :=
  if m.any (fun p => p.1 == k) then m.map (fun p => if p.1 == k then (k, v) else p)
  else m ++ [(k, v)]

/-- `build_country_database()`: abbreviations, then demonyms, then the ISO
names, inserted with dict semantics. -/
def build_country_database : List (String × String) :=
  pycountryNames.foldl (fun m n => dictInsert m n n)
    (demonymEntries.foldl (fun m p => dictInsert m p.1 p.2) abbreviationMap)

/-- `COUNTRY_MAP` module constant.  No key of any of the three source lists
collides with a key of another (`COUNTRY_MAP_eq_build` below proves it), so
the dict build reduces to plain concatenation; this form keeps kernel
evaluation of the concrete scenarios tractable. -/
def COUNTRY_MAP : List (String × String) :=
  abbreviationMap ++ demonymEntries ++ pycountryNames.map (fun n => (n, n))

set_option maxRecDepth 100000 in
/-- The concatenated form agrees with the dict-semantics build. -/
theorem COUNTRY_MAP_eq_build : COUNTRY_MAP = build_country_database := by decide

/-- Insert into a sorted duplicate-free list: the canonical representation
used here for a Python `set` of strings (Python set iteration order is
unspecified; every use below is order-insensitive, so the set is kept in
sorted order). -/
def setInsert (a : String) : List String → List String
  | [] => [a]
  | b :: l => if a == b then b :: l else if a < b then a :: b :: l else b :: setInsert a l

/-- Canonical set built from a list of elements. -/
def listToSet (l : List String) : List String := l.foldl (fun s a => setInsert a s) []

/-- `extract_countries`: the set of canonical names whose alias occurs
whole-word, case-insensitively, in the text. -/
def extract_countries (text : String) : List String :=
  listToSet ((COUNTRY_MAP.filter (fun p => searchWordCI p.1 text)).map Prod.snd)

/-! ## Text cleaning (`clean_description`) -/

/-- The static platform-name list of `clean_description`, in source order. -/
def platformSources : List String :=
  ["DarkForums", "Exploit", "RAMP", "Leakbase", "Telegram", "Breachforums",
   "XSS", "Hackforums", "Deepwebchinese"]

/-- `clean_description`: strip platform names, collapse whitespace, trim,
then append a final `.` when the nonempty result does not already end in
`.`, `!` or `?`. -/
def clean_description (desc : String) : String :=
  let d1 := platformSources.foldl (fun d src => subWordCI src d) desc
  let d2 := stripL (collapseWSL d1.data)
  if !d2.isEmpty && !endsPunct d2 then ⟨d2 ++ ['.']⟩ else ⟨d2⟩

/-! ## Word-stream incident scanning (`get_word_stream_incidents`) -/

/-- A positioned word token: extracted text plus its font name. -/
structure Word where
  text : String
  fontname : String
deriving DecidableEq

/-- A parsed incident: actor name and cleaned description. -/
structure Incident where
  actor : String
  desc : String
deriving DecidableEq

/-- The four category keys of the per-document dictionary
(`Access`, `Data`, `Malware`, `Other`). -/
inductive Cat
  | access
  | dataBr
  | malware
  | other
deriving DecidableEq

/-- The per-document result: one incident list per category key. -/
structure ParseData where
  access : List Incident
  dataBr : List Incident
  malware : List Incident
  other : List Incident
deriving DecidableEq

def ParseData.empty : ParseData := ⟨[], [], [], []⟩

def ParseData.get (d : ParseData) : Cat → List Incident
  | .access => d.access
  | .dataBr => d.dataBr
  | .malware => d.malware
  | .other => d.other

def ParseData.add (d : ParseData) (c : Cat) (i : Incident) : ParseData :=
  match c with
  | .access => { d with access := d.access ++ [i] }
  | .dataBr => { d with dataBr := d.dataBr ++ [i] }
  | .malware => { d with malware := d.malware ++ [i] }
  | .other => { d with other := d.other ++ [i] }

/-- Case-sensitive "starts with" on character lists. -/
def startsWithL : List Char → List Char → Bool
  | [], _ => true
  | _ :: _, [] => false
  | p :: ps, c :: cs => p == c && startsWithL ps cs

/-- Python `pattern in s` substring test. -/
def containsSubL (p : List Char) : List Char → Bool
  | [] => p.isEmpty
  | c :: cs => startsWithL p (c :: cs) || containsSubL p cs

def containsSub (p s : String) : Bool :=
  p.data.isEmpty || containsSubL p.data s.data

/-- Python `str.lower()` / `str.upper()` (ASCII letters). -/
def strLower (s : String) : String := ⟨s.data.map Char.toLower⟩

def strUpper (s : String) : String := ⟨s.data.map Char.toUpper⟩

/-- `is_bold`: the lower-cased font name contains "bold", "black" or
"heavy". -/
def is_bold (w : Word) : Bool :=
  let font := strLower w.fontname
  containsSub "bold" font || containsSub "black" font || containsSub "heavy" font

def SECTION_HEADERS : List String := ["ACCESS", "DATA", "MALWARE", "OTHER", "VULNERABILITY"]

def IGNORE_WORDS : List String :=
  ["THREAT", "DETAIL", "ACTIVITY", "ALERTS", "RELAY", "SOURCE", "PAGE", "VERSION", "PUBLISH"]

/-- Recognized section header (already upper-cased, drawn from
`SECTION_HEADERS`) to category key: `VULNERABILITY` maps to `Other`, the
rest to their capitalized dictionary key. -/
def headerToCat (upper : String) : Cat :=
  if upper == "VULNERABILITY" then .other
  else if upper == "ACCESS" then .access
  else if upper == "DATA" then .dataBr
  else if upper == "MALWARE" then .malware
  else .other

/-- Python `str.isdigit()` (ASCII): nonempty and all digits. -/
def isdigitStr (s : String) : Bool := !s.data.isEmpty && s.data.all Char.isDigit

/-- `" ".join(parts)`. -/
def joinSpace : List String → String
  | [] => ""
  | [s] => s
  | s :: rest => s ++ " " ++ joinSpace rest

/-- `"\n".join(parts)`. -/
def joinNl : List String → String
  | [] => ""
  | [s] => s
  | s :: rest => s ++ "\n" ++ joinNl rest

/-- `", ".join(parts)`. -/
def joinComma : List String → String
  | [] => ""
  | [s] => s
  | s :: rest => s ++ ", " ++ joinComma rest

/-- `str.replace(" .", ".")`: non-overlapping left-to-right replacement. -/
def replaceSpaceDot : List Char → List Char
  | ' ' :: '.' :: rest => '.' :: replaceSpaceDot rest
  | c :: rest => c :: replaceSpaceDot rest
  | [] => []

/-- The leading-junk class of `re.sub(r"^[\d\s\.\•\-]+", "", desc)`. -/
def isLeadJunk (c : Char) : Bool :=
  c.isDigit || isWS c || c == '.' || c == '•' || c == '-'

/-- `save_incident`: join and normalize the buffered actor and description
tokens, clean the description, and append the incident to its category
list when both fields are nonempty. -/
def save_incident (store : ParseData) (category : Cat)
    (actor_parts desc_words : List String) : ParseData :=
  if actor_parts.isEmpty then store
  else
    let actor : String := ⟨stripL (joinSpace actor_parts).data⟩
    let desc0 := stripL (replaceSpaceDot (joinSpace desc_words).data)
    let desc := clean_description ⟨desc0.dropWhile isLeadJunk⟩
    if actor ≠ "" && desc ≠ "" then store.add category ⟨actor, desc⟩ else store

/-- The mutable state of the scanning loop. -/
structure PState where
  store : ParseData
  cat : Cat
  actorParts : List String
  descWords : List String
deriving DecidableEq

def PState.init : PState := ⟨ParseData.empty, .other, [], []⟩

/-- Is this token the `THREAT` of a `THREAT ACTIVITY` end marker, given the
remaining stream? -/
def isEndMarker (w : Word) (rest : List Word) : Bool :=
  strUpper w.text == "THREAT" &&
    match rest with
    | w2 :: _ => strUpper w2.text == "ACTIVITY"
    | [] => false

/-- The main scanning loop of `get_word_stream_incidents` over the scan
range, with the one-token lookahead used by the end-marker test. -/
def parseLoop : PState → List Word → PState
  | st, [] => st
  | st, w :: rest =>
    let txt := w.text
    let upper := strUpper txt
    if isEndMarker w rest then st
    else if is_bold w && SECTION_HEADERS.contains upper then
      let store1 :=
        if !st.actorParts.isEmpty then
          save_incident st.store st.cat st.actorParts st.descWords
        else st.store
      parseLoop ⟨store1, headerToCat upper, [], []⟩ rest
    else if is_bold w && !IGNORE_WORDS.contains upper && !isdigitStr txt then
      if !st.descWords.isEmpty then
        parseLoop ⟨save_incident st.store st.cat st.actorParts st.descWords,
          st.cat, [txt], []⟩ rest
      else parseLoop ⟨st.store, st.cat, st.actorParts ++ [txt], st.descWords⟩ rest
    else
      if !st.actorParts.isEmpty && txt ≠ "•" && txt ≠ "–" then
        parseLoop ⟨st.store, st.cat, st.actorParts, st.descWords ++ [txt]⟩ rest
      else parseLoop st rest

/-- The suffix of the stream after the first `THREAT DETAIL` pair, when one
exists (the source scans indices left to right and stops at the first pair;
a final `THREAT` has no successor and cannot start a pair). -/
def afterStart : List Word → Option (List Word)
  | [] => none
  | [_] => none
  | w :: w2 :: rest2 =>
    if strUpper w.text == "THREAT" && strUpper w2.text == "DETAIL" then some rest2
    else afterStart (w2 :: rest2)

/-- The scan range: tokens after the start marker, or the whole stream when
the marker is missing. -/
def scanRange (ws : List Word) : List Word := (afterStart ws).getD ws

/-- The final flush of a pending incident after the scan ends. -/
def finalFlush (st : PState) : ParseData :=
  if !st.actorParts.isEmpty then
    save_incident st.store st.cat st.actorParts st.descWords
  else st.store

/-- `get_word_stream_incidents`, taking the already-extracted word stream
of one document. -/
def get_word_stream_incidents (words : List Word) : ParseData :=
  finalFlush (parseLoop PState.init (scanRange words))

/-! ## Aggregation and analytics (`build_all_tables_from_pdfs`) -/

/-- One `storage[cat]["inc"]` update for a parsed incident: create the
actor entry at first sight (preserving insertion order) and append the
description. -/
def addInc (inc : List (String × List String)) (act dsc : String) :
    List (String × List String) :=
  if inc.any (fun p => p.1 == act) then
    inc.map (fun p => if p.1 == act then (p.1, p.2 ++ [dsc]) else p)
  else inc ++ [(act, [dsc])]

/-- All incidents of one category across the document streams, in document
order (the caller passes the streams already in sorted-path order, as
`for path in sorted(pdf_paths)` does). -/
def catIncidents (docs : List (List Word)) (c : Cat) : List Incident :=
  (docs.map (fun d => (get_word_stream_incidents d).get c)).flatten

/-- `storage[cat]["inc"]` after folding in every document.  The per-category
stores are independent, so the doc-then-category loop of the source equals
this per-category left fold over the category's flattened incident list. -/
def storageInc (docs : List (List Word)) (c : Cat) : List (String × List String) :=
  (catIncidents docs c).foldl (fun m i => addInc m i.actor i.desc) []

/-- `storage[cat]["cty"]`: the flat description list of a category (the
source stores `(cat, dsc)` pairs whose first component is always the
category itself). -/
def storageCty (docs : List (List Word)) (c : Cat) : List String :=
  (catIncidents docs c).map (fun i => i.desc)

/-- A table cell: pandas object cells here hold strings or integers. -/
inductive Cell
  | str (s : String)
  | num (n : Nat)
deriving DecidableEq

/-- A data frame: column names plus rows of (column, cell) pairs. -/
structure DF where
  cols : List String
  rows : List (List (String × Cell))
deriving DecidableEq

/-- `pd.DataFrame(rows)` built from a list of dicts: the columns are the
keys of the rows (all rows share one key list here); an empty list yields
a frame with no columns. -/
def mkDF (rows : List (List (String × Cell))) : DF :=
  ⟨((rows.head?).map (fun r => r.map Prod.fst)).getD [], rows⟩

/-- Cell of a named column in one row. -/
def cellOf (r : List (String × Cell)) (col : String) : Option Cell := r.lookup col

/-- Stable insertion sort: the model of Python `sorted` and pandas
`sort_values`. -/
def insertBy {α : Type} (le : α → α → Bool) (a : α) : List α → List α
  | [] => [a]
  | b :: l => if le a b then a :: b :: l else b :: insertBy le a l

/-- Sort a list by the boolean relation `le`. -/
def sortBy {α : Type} (le : α → α → Bool) (l : List α) : List α :=
  l.foldr (insertBy le) []

/-- The union of extracted countries over an actor's descriptions
(`countries |= extract_countries(d)`). -/
def countrySetOf (descs : List String) : List String :=
  descs.foldl (fun s d => (extract_countries d).foldl (fun s c => setInsert c s) s) []

/-- The `Country` cell: sorted comma-joined country names, or `Unknown`. -/
def countryCell (descs : List String) : String :=
  let j := joinComma (sortBy (fun a b => a ≤ b) (countrySetOf descs))
  if j == "" then "Unknown" else j

/-- The `Incident` cell: bullet-prefixed joined lines when the actor has
more than one description, else the bare description. -/
def incidentCell (descs : List String) : String :=
  if descs.length > 1 then joinNl (descs.map (fun d => "• " ++ d))
  else descs.headD ""

/-- One row of `build_df` (1-based sequence number). -/
def buildRow (include_country : Bool) (idx : Nat) (actor : String)
    (descs : List String) : List (String × Cell) :=
  [("No.", Cell.num (idx + 1)), ("Threat Actor", Cell.str actor),
   ("Incident", Cell.str (incidentCell descs))] ++
    (if include_country then [("Country", Cell.str (countryCell descs))] else [])

/-- `build_df(cat, include_country)`. -/
def build_df (docs : List (List Word)) (c : Cat) (include_country : Bool) : DF :=
  mkDF ((storageInc docs c).enum.map (fun p => buildRow include_country p.1 p.2.1 p.2.2))

/-- Number of `•` occurrences in a string. -/
def bulletCount (s : String) : Nat := s.data.count '•'

/-- `count_incidents_from_df`: 0 without an `Incident` column, else the sum
over rows of (number of `•` occurrences when at least one is present, else
exactly 1), skipping non-string cells. -/
def count_incidents_from_df (df : DF) : Nat :=
  if df.cols.contains "Incident" then
    (df.rows.map (fun r =>
      match cellOf r "Incident" with
      | some (Cell.str v) => if bulletCount v > 0 then bulletCount v else 1
      | _ => 0)).sum
  else 0

/-- One `Counter` increment with dict insertion-order semantics. -/
def counterAdd (m : List (String × Nat)) (k : String) : List (String × Nat) :=
  if m.any (fun p => p.1 == k) then
    m.map (fun p => if p.1 == k then (p.1, p.2 + 1) else p)
  else m ++ [(k, 1)]

/-- The country `Counter` over a description list: one increment per
(description, extracted country) pair.  Python iterates each extracted set
in unspecified order; the counts are order-independent, and the set model
is iterated in its canonical sorted order. -/
def countryCounter (descs : List String) : List (String × Nat) :=
  descs.foldl (fun m d => (extract_countries d).foldl counterAdd m) []

/-- The six output tables, in the order the source returns them. -/
structure Tables where
  acc : DF
  dat : DF
  mal : DF
  oth : DF
  tot : DF
  cty : DF
deriving DecidableEq

/-- The totals table built from the four category counts. -/
def totalsDF (a d m o : Nat) : DF :=
  mkDF
    [[("Category", Cell.str "Access Broker"), ("Count", Cell.num a)],
     [("Category", Cell.str "Data Breaches"), ("Count", Cell.num d)],
     [("Category", Cell.str "Malware"), ("Count", Cell.num m)],
     [("Category", Cell.str "Other Threats"), ("Count", Cell.num o)],
     [("Category", Cell.str "Total"), ("Count", Cell.num (a + d + m + o))]]

/-- Descending order on occurrence counts
(`sort_values("Occurrences", ascending=False)`). -/
def descOcc (a b : String × Nat) : Bool := b.2 ≤ a.2

/-- One row of the country-occurrence table. -/
def ctyRow (p : String × Nat) : List (String × Cell) :=
  [("Country", Cell.str p.1), ("Occurrences", Cell.num p.2)]

/-- The flat description list feeding the country tally: the Access Broker
then Data Breaches `cty` lists. -/
def ctyDescs (docs : List (List Word)) : List String :=
  storageCty docs .access ++ storageCty docs .dataBr

/-- The country-occurrence table: the counter items sorted by descending
occurrence count, with the explicit column names the source passes to
`pd.DataFrame`. -/
def ctyDF (docs : List (List Word)) : DF :=
  ⟨["Country", "Occurrences"],
    (sortBy descOcc (countryCounter (ctyDescs docs))).map ctyRow⟩

/-- `build_all_tables_from_pdfs`, taking the documents' word streams in
sorted-path order. -/
def build_all_tables_from_pdfs (docs : List (List Word)) : Tables :=
  let acc := build_df docs .access true
  let dat := build_df docs .dataBr true
  let mal := build_df docs .malware false
  let oth := build_df docs .other false
  ⟨acc, dat, mal, oth,
    totalsDF (count_incidents_from_df acc) (count_incidents_from_df dat)
      (count_incidents_from_df mal) (count_incidents_from_df oth),
    ctyDF docs⟩

/-! ## Claim-level helper notions -/

/-- Python `s.split("\n")`. -/
def splitNl : List Char → List (List Char)
  | [] => [[]]
  | c :: rest =>
    if c == '\n' then [] :: splitNl rest
    else
      match splitNl rest with
      | l :: ls => (c :: l) :: ls
      | [] => [[c]]

/-- The claim's counting rule for one `Incident` cell: the number of
bullet-prefixed lines when the cell contains any, else exactly 1. -/
def specCellCount (s : String) : Nat :=
  let b := (splitNl s.data).countP (fun l => startsWithL "•".data l)
  if b > 0 then b else 1

/-- Sum of the claim's per-row counts over a category table. -/
def specSumDF (df : DF) : Nat :=
  (df.rows.map (fun r =>
    match cellOf r "Incident" with
    | some (Cell.str v) => specCellCount v
    | _ => 0)).sum

/-- The code's per-row counting rule summed over a category table: number
of `•` occurrences anywhere in the cell when at least one is present, else
exactly 1. -/
def bulletSumDF (df : DF) : Nat :=
  (df.rows.map (fun r =>
    match cellOf r "Incident" with
    | some (Cell.str v) => if bulletCount v > 0 then bulletCount v else 1
    | _ => 0)).sum

/-- The recorded `Count` of a named category row of the totals table. -/
def totalsCount (df : DF) (category : String) : Option Nat :=
  match df.rows.find? (fun r => cellOf r "Category" == some (Cell.str category)) with
  | some r =>
    match cellOf r "Count" with
    | some (Cell.num n) => some n
    | _ => none
  | none => none

theorem count_incidents_eq_bulletSum (docs : List (List Word)) (c : Cat)
    (ic : Bool) : count_incidents_from_df (build_df docs c ic) =
      bulletSumDF (build_df docs c ic) := by
  cases h : storageInc docs c with
  | nil => simp [build_df, h, mkDF, count_incidents_from_df, bulletSumDF]
  | cons p l =>
    have hcols : (build_df docs c ic).cols.contains "Incident" = true := by
      cases ic <;> simp [build_df, h, mkDF, buildRow]
    unfold count_incidents_from_df bulletSumDF
    rw [if_pos hcols]

/-- C1 (amended): the totals table records, for each category, the sum over
that category table's rows of the code's bullet-occurrence count (number of
`•` characters when at least one occurs in the cell, else 1), and the
`Total` row is the sum of the four category values. -/
theorem c1_totals_consistent (docs : List (List Word)) :
    totalsCount (build_all_tables_from_pdfs docs).tot "Access Broker" =
      some (bulletSumDF (build_all_tables_from_pdfs docs).acc) ∧
    totalsCount (build_all_tables_from_pdfs docs).tot "Data Breaches" =
      some (bulletSumDF (build_all_tables_from_pdfs docs).dat) ∧
    totalsCount (build_all_tables_from_pdfs docs).tot "Malware" =
      some (bulletSumDF (build_all_tables_from_pdfs docs).mal) ∧
    totalsCount (build_all_tables_from_pdfs docs).tot "Other Threats" =
      some (bulletSumDF (build_all_tables_from_pdfs docs).oth) ∧
    totalsCount (build_all_tables_from_pdfs docs).tot "Total" =
      some (bulletSumDF (build_all_tables_from_pdfs docs).acc +
        bulletSumDF (build_all_tables_from_pdfs docs).dat +
        bulletSumDF (build_all_tables_from_pdfs docs).mal +
        bulletSumDF (build_all_tables_from_pdfs docs).oth) := by
  simp only [build_all_tables_from_pdfs, count_incidents_eq_bulletSum]
  exact ⟨rfl, rfl, rfl, rfl, rfl⟩

/-- C1 counterexample: a description token may itself contain `•`
characters; the code then counts the `•` occurrences (2 here) while the
claim's bullet-prefixed-line rule yields 1, so the recorded `Other Threats`
count differs from the claim's sum. -/
theorem c1_counterexample :
    totalsCount (build_all_tables_from_pdfs
        [[⟨"ACME", "Bold"⟩, ⟨"a•b•c", "regular"⟩]]).tot "Other Threats" = some 2 ∧
      specSumDF (build_all_tables_from_pdfs
        [[⟨"ACME", "Bold"⟩, ⟨"a•b•c", "regular"⟩]]).oth = 1 := by
  constructor
  · decide
  · decide

/-- C3: the single-actor single-incident scenario: bold `ACCESS`, bold
`ACME`, then the non-bold description tokens yield exactly one Access
Broker row with actor `ACME`, the cleaned sentence-terminated incident
text, and country `Germany`. -/
theorem c3_single_actor_scenario :
    (build_all_tables_from_pdfs
        [[⟨"ACCESS", "Bold"⟩, ⟨"ACME", "Bold"⟩, ⟨"sells", "regular"⟩,
          ⟨"access", "regular"⟩, ⟨"to", "regular"⟩, ⟨"a", "regular"⟩,
          ⟨"bank", "regular"⟩, ⟨"in", "regular"⟩, ⟨"Germany", "regular"⟩]]).acc.rows =
      [[("No.", Cell.num 1), ("Threat Actor", Cell.str "ACME"),
        ("Incident", Cell.str "sells access to a bank in Germany."),
        ("Country", Cell.str "Germany")]] := by
  decide

theorem build_df_cols (docs : List (List Word)) (c : Cat) (ic : Bool) :
    (build_df docs c ic).rows ≠ [] →
      (build_df docs c ic).cols =
        ["No.", "Threat Actor", "Incident"] ++ (if ic then ["Country"] else []) := by
  cases h : storageInc docs c with
  | nil => intro hr; exact absurd (by simp [build_df, h, mkDF]) hr
  | cons p l => intro _; cases ic <;> simp [build_df, h, mkDF, buildRow]

/-- C2 (amended): a category table carries the fixed column names whenever
it has at least one row (`Country` only for Access Broker and Data
Breaches); a zero-row table has no columns at all, and an empty document
yields four row-less category tables, the all-zero totals table with
`Total = 0`, and a row-less country-occurrence table. -/
theorem c2_fixed_columns :
    (∀ docs : List (List Word),
      ((build_all_tables_from_pdfs docs).acc.rows ≠ [] →
        (build_all_tables_from_pdfs docs).acc.cols =
          ["No.", "Threat Actor", "Incident", "Country"]) ∧
      ((build_all_tables_from_pdfs docs).dat.rows ≠ [] →
        (build_all_tables_from_pdfs docs).dat.cols =
          ["No.", "Threat Actor", "Incident", "Country"]) ∧
      ((build_all_tables_from_pdfs docs).mal.rows ≠ [] →
        (build_all_tables_from_pdfs docs).mal.cols =
          ["No.", "Threat Actor", "Incident"]) ∧
      ((build_all_tables_from_pdfs docs).oth.rows ≠ [] →
        (build_all_tables_from_pdfs docs).oth.cols =
          ["No.", "Threat Actor", "Incident"])) ∧
    build_all_tables_from_pdfs [[]] =
      ⟨⟨[], []⟩, ⟨[], []⟩, ⟨[], []⟩, ⟨[], []⟩,
        ⟨["Category", "Count"],
          [[("Category", Cell.str "Access Broker"), ("Count", Cell.num 0)],
           [("Category", Cell.str "Data Breaches"), ("Count", Cell.num 0)],
           [("Category", Cell.str "Malware"), ("Count", Cell.num 0)],
           [("Category", Cell.str "Other Threats"), ("Count", Cell.num 0)],
           [("Category", Cell.str "Total"), ("Count", Cell.num 0)]]⟩,
        ⟨["Country", "Occurrences"], []⟩⟩ := by
  constructor
  · intro docs
    exact ⟨build_df_cols docs .access true, build_df_cols docs .dataBr true,
      build_df_cols docs .malware false, build_df_cols docs .other false⟩
  · decide

/-- C2 counterexample: on an empty document the Access Broker table is
built from an empty row list, so it has no columns at all (pandas infers
columns from the rows), contradicting the claim's "for every input
document set". -/
theorem c2_counterexample :
    (build_all_tables_from_pdfs [[]]).acc.cols ≠
      ["No.", "Threat Actor", "Incident", "Country"] := by
  decide

/-- C2 witness: one document that populates all four categories; every
category table then carries exactly the fixed column names. -/
theorem c2_column_witness :
    (build_all_tables_from_pdfs
        [[⟨"ACCESS", "Bold"⟩, ⟨"A1", "Bold"⟩, ⟨"w", "r"⟩,
          ⟨"DATA", "Bold"⟩, ⟨"A2", "Bold"⟩, ⟨"w", "r"⟩,
          ⟨"MALWARE", "Bold"⟩, ⟨"A3", "Bold"⟩, ⟨"w", "r"⟩,
          ⟨"OTHER", "Bold"⟩, ⟨"A4", "Bold"⟩, ⟨"w", "r"⟩]]).acc.cols =
      ["No.", "Threat Actor", "Incident", "Country"] ∧
    (build_all_tables_from_pdfs
        [[⟨"ACCESS", "Bold"⟩, ⟨"A1", "Bold"⟩, ⟨"w", "r"⟩,
          ⟨"DATA", "Bold"⟩, ⟨"A2", "Bold"⟩, ⟨"w", "r"⟩,
          ⟨"MALWARE", "Bold"⟩, ⟨"A3", "Bold"⟩, ⟨"w", "r"⟩,
          ⟨"OTHER", "Bold"⟩, ⟨"A4", "Bold"⟩, ⟨"w", "r"⟩]]).mal.cols =
      ["No.", "Threat Actor", "Incident"] := by
  refine ⟨((c2_fixed_columns.1 _).1 ?_), ((c2_fixed_columns.1 _).2.2.1 ?_)⟩
  · decide
  · decide

/-- C4: when the same actor `ACME` contributes one Access Broker incident
in each of two documents processed in order, the merged row joins the two
cleaned descriptions as newline-separated bullet-prefixed lines and
contributes 2 to the category count. -/
theorem c4_multi_incident (d1 d2 : List Word)
    (h1 : (get_word_stream_incidents d1).get .access =
      [⟨"ACME", clean_description "leaked 500 records"⟩])
    (h2 : (get_word_stream_incidents d2).get .access =
      [⟨"ACME", clean_description "re-sold access"⟩]) :
    ((build_all_tables_from_pdfs [d1, d2]).acc.rows.map
        (fun r => cellOf r "Incident")) =
      [some (Cell.str "• leaked 500 records.\n• re-sold access.")] ∧
    count_incidents_from_df (build_all_tables_from_pdfs [d1, d2]).acc = 2 := by
  have hcat : catIncidents [d1, d2] .access =
      [⟨"ACME", clean_description "leaked 500 records"⟩,
       ⟨"ACME", clean_description "re-sold access"⟩] := by
    simp [catIncidents, h1, h2]
  constructor
  · simp only [build_all_tables_from_pdfs, build_df, storageInc, hcat]
    decide
  · simp only [build_all_tables_from_pdfs, build_df, storageInc, hcat]
    decide

/-- C4 witness: two concrete documents realizing the two `ACME` incidents. -/
theorem c4_multi_incident_witness :
    ((build_all_tables_from_pdfs
        [[⟨"ACCESS", "Bold"⟩, ⟨"ACME", "Bold"⟩, ⟨"leaked", "r"⟩,
          ⟨"500", "r"⟩, ⟨"records", "r"⟩],
         [⟨"ACCESS", "Bold"⟩, ⟨"ACME", "Bold"⟩, ⟨"re-sold", "r"⟩,
          ⟨"access", "r"⟩]]).acc.rows.map (fun r => cellOf r "Incident")) =
      [some (Cell.str "• leaked 500 records.\n• re-sold access.")] ∧
    count_incidents_from_df (build_all_tables_from_pdfs
        [[⟨"ACCESS", "Bold"⟩, ⟨"ACME", "Bold"⟩, ⟨"leaked", "r"⟩,
          ⟨"500", "r"⟩, ⟨"records", "r"⟩],
         [⟨"ACCESS", "Bold"⟩, ⟨"ACME", "Bold"⟩, ⟨"re-sold", "r"⟩,
          ⟨"access", "r"⟩]]).acc = 2 :=
  c4_multi_incident _ _ (by decide) (by decide)

/-! ## Scan-range characterization (C7) -/

/-- A `THREAT DETAIL` start-marker pair begins at index `i`. -/
def startPairAt (ws : List Word) (i : Nat) : Bool :=
  match ws.drop i with
  | w :: w2 :: _ => strUpper w.text == "THREAT" && strUpper w2.text == "DETAIL"
  | _ => false

/-- A `THREAT ACTIVITY` end-marker pair begins at index `i`. -/
def endPairAt (ws : List Word) (i : Nat) : Bool :=
  match ws.drop i with
  | w :: w2 :: _ => strUpper w.text == "THREAT" && strUpper w2.text == "ACTIVITY"
  | _ => false

/-- The prefix of the scan range before the first end-marker pair. -/
def truncAtEnd : List Word → List Word
  | [] => []
  | w :: rest => if isEndMarker w rest then [] else w :: truncAtEnd rest

theorem startPairAt_succ (w : Word) (rest : List Word) (i : Nat) :
    startPairAt (w :: rest) (i + 1) = startPairAt rest i := by
  simp [startPairAt, List.drop_succ_cons]

theorem endPairAt_succ (w : Word) (rest : List Word) (i : Nat) :
    endPairAt (w :: rest) (i + 1) = endPairAt rest i := by
  simp [endPairAt, List.drop_succ_cons]

theorem startPairAt_zero_cons2 (w w2 : Word) (rest2 : List Word) :
    startPairAt (w :: w2 :: rest2) 0 =
      (strUpper w.text == "THREAT" && strUpper w2.text == "DETAIL") := by
  simp [startPairAt]

theorem afterStart_none : ∀ ws : List Word, afterStart ws = none →
    ∀ i, startPairAt ws i = false := by
  intro ws
  induction ws with
  | nil => intro _ i; simp [startPairAt]
  | cons w rest ih =>
    intro h i
    cases rest with
    | nil =>
      cases i with
      | zero => simp [startPairAt]
      | succ i => simp [startPairAt_succ, startPairAt]
    | cons w2 rest2 =>
      cases hC : (strUpper w.text == "THREAT" && strUpper w2.text == "DETAIL") with
      | true => exact absurd h (by simp [afterStart, hC])
      | false =>
        have h2 : afterStart (w2 :: rest2) = none := by
          simpa [afterStart, hC] using h
        cases i with
        | zero => rw [startPairAt_zero_cons2]; exact hC
        | succ i => rw [startPairAt_succ]; exact ih h2 i

theorem afterStart_some : ∀ ws : List Word, ∀ r : List Word, afterStart ws = some r →
    ∃ i, startPairAt ws i = true ∧ (∀ j, j < i → startPairAt ws j = false) ∧
      r = ws.drop (i + 2) := by
  intro ws
  induction ws with
  | nil => intro r h; exact absurd h (by simp [afterStart])
  | cons w rest ih =>
    intro r h
    cases rest with
    | nil => exact absurd h (by simp [afterStart])
    | cons w2 rest2 =>
      cases hC : (strUpper w.text == "THREAT" && strUpper w2.text == "DETAIL") with
      | true =>
        have hr : r = rest2 := by
          have h2 := h
          simp only [afterStart, hC, if_true] at h2
          exact (Option.some_inj.1 h2).symm
        refine ⟨0, ?_, ?_, ?_⟩
        · rw [startPairAt_zero_cons2]; exact hC
        · intro j hj; omega
        · simpa using hr
      | false =>
        have h2 : afterStart (w2 :: rest2) = some r := by
          simpa [afterStart, hC] using h
        obtain ⟨i, hi, hlt, hr⟩ := ih r h2
        refine ⟨i + 1, ?_, ?_, ?_⟩
        · rw [startPairAt_succ]; exact hi
        · intro j hj
          cases j with
          | zero => rw [startPairAt_zero_cons2]; exact hC
          | succ j => rw [startPairAt_succ]; exact hlt j (by omega)
        · simpa [List.drop_succ_cons] using hr

theorem endPairAt_zero (w : Word) (rest : List Word) :
    endPairAt (w :: rest) 0 = isEndMarker w rest := by
  cases rest <;> simp [endPairAt, isEndMarker]

theorem truncAtEnd_spec : ∀ ws : List Word,
    ((∀ i, endPairAt ws i = false) ∧ truncAtEnd ws = ws) ∨
      (∃ i, endPairAt ws i = true ∧ (∀ j, j < i → endPairAt ws j = false) ∧
        truncAtEnd ws = ws.take i) := by
  intro ws
  induction ws with
  | nil => exact Or.inl ⟨fun i => by simp [endPairAt], rfl⟩
  | cons w rest ih =>
    by_cases hE : isEndMarker w rest = true
    · refine Or.inr ⟨0, ?_, ?_, ?_⟩
      · rw [endPairAt_zero]; exact hE
      · intro j hj; omega
      · simp [truncAtEnd, hE]
    · have hE0 : endPairAt (w :: rest) 0 = false := by
        rw [endPairAt_zero]; exact Bool.not_eq_true _ ▸ (by simpa using hE)
      rcases ih with ⟨hall, heq⟩ | ⟨i, hi, hlt, heq⟩
      · refine Or.inl ⟨?_, ?_⟩
        · intro i
          cases i with
          | zero => exact hE0
          | succ i => rw [endPairAt_succ]; exact hall i
        · simp [truncAtEnd, hE, heq]
      · refine Or.inr ⟨i + 1, ?_, ?_, ?_⟩
        · rw [endPairAt_succ]; exact hi
        · intro j hj
          cases j with
          | zero => exact hE0
          | succ j => rw [endPairAt_succ]; exact hlt j (by omega)
        · simp [truncAtEnd, hE, heq]

theorem isEndMarker_trunc (w : Word) (rest : List Word)
    (hE : isEndMarker w rest = false) :
    isEndMarker w (truncAtEnd rest) = false := by
  cases rest with
  | nil => exact hE
  | cons w2 rest2 =>
    by_cases h2 : isEndMarker w2 rest2 = true
    · simp only [truncAtEnd, if_pos h2]
      simp only [isEndMarker] at hE ⊢
      cases hb : (strUpper w.text == "THREAT") <;> simp [hb] at hE ⊢
    · simp only [truncAtEnd, if_neg h2]
      simp only [isEndMarker] at hE ⊢
      exact hE

theorem parseLoop_trunc : ∀ (ws : List Word) (st : PState),
    parseLoop st ws = parseLoop st (truncAtEnd ws) := by
  intro ws
  induction ws with
  | nil => intro st; rfl
  | cons w rest ih =>
    intro st
    by_cases hE : isEndMarker w rest = true
    · simp [parseLoop, truncAtEnd, hE]
    · have hEf : isEndMarker w rest = false := by simpa using hE
      have hE' : isEndMarker w (truncAtEnd rest) = false := isEndMarker_trunc w rest hEf
      simp only [truncAtEnd, if_neg hE]
      simp only [parseLoop, hEf, hE']
      simp only [Bool.false_eq_true, if_false]
      split_ifs <;> first | rfl | exact ih _

/-- C7: the scan starts right after the first `THREAT DETAIL` pair (at
offset 0 when the pair never occurs), ends exclusively at the first
subsequent `THREAT ACTIVITY` pair (at the end of the stream when that pair
never occurs), and both fallbacks are ordinary defined behavior of the
total parsing function. -/
theorem c7_scan_range (ws : List Word) :
    (((∀ i, startPairAt ws i = false) ∧ scanRange ws = ws) ∨
      (∃ i, startPairAt ws i = true ∧ (∀ j, j < i → startPairAt ws j = false) ∧
        scanRange ws = ws.drop (i + 2))) ∧
    (((∀ i, endPairAt (scanRange ws) i = false) ∧
        truncAtEnd (scanRange ws) = scanRange ws) ∨
      (∃ i, endPairAt (scanRange ws) i = true ∧
        (∀ j, j < i → endPairAt (scanRange ws) j = false) ∧
        truncAtEnd (scanRange ws) = (scanRange ws).take i)) ∧
    get_word_stream_incidents ws =
      finalFlush (parseLoop PState.init (truncAtEnd (scanRange ws))) := by
  refine ⟨?_, truncAtEnd_spec _, ?_⟩
  · cases h : afterStart ws with
    | none => exact Or.inl ⟨afterStart_none ws h, by simp [scanRange, h]⟩
    | some r =>
      obtain ⟨i, hi, hlt, hr⟩ := afterStart_some ws r h
      exact Or.inr ⟨i, hi, hlt, by simp [scanRange, h, hr]⟩
  · rw [get_word_stream_incidents, parseLoop_trunc]

/-! ## Set-model lemmas for country extraction -/

theorem setInsert_mem (x a : String) : ∀ l : List String,
    (x ∈ setInsert a l ↔ x = a ∨ x ∈ l) := by
  intro l
  induction l with
  | nil => simp [setInsert]
  | cons b l ih =>
    by_cases hab : a == b
    · have : a = b := by simpa using hab
      subst this
      simp only [setInsert, if_pos hab]
      constructor
      · intro h; exact Or.inr h
      · rintro (h | h)
        · subst h; exact List.mem_cons_self _ _
        · exact h
    · simp only [setInsert, if_neg hab]
      by_cases hlt : a < b
      · rw [if_pos hlt]
        simp [List.mem_cons]
        try tauto
      · rw [if_neg hlt]
        simp only [List.mem_cons, ih]
        tauto

theorem foldl_setInsert_mem (x : String) : ∀ (l acc : List String),
    (x ∈ l.foldl (fun s a => setInsert a s) acc ↔ x ∈ acc ∨ x ∈ l) := by
  intro l
  induction l with
  | nil => simp
  | cons b l ih =>
    intro acc
    simp only [List.foldl_cons, ih, setInsert_mem, List.mem_cons]
    tauto

theorem listToSet_mem (x : String) (l : List String) :
    x ∈ listToSet l ↔ x ∈ l := by
  simp [listToSet, foldl_setInsert_mem]

theorem extract_countries_mem (c : String) (text : String) :
    c ∈ extract_countries text ↔
      ∃ p, p ∈ COUNTRY_MAP ∧ searchWordCI p.1 text = true ∧ p.2 = c := by
  simp only [extract_countries, listToSet_mem, List.mem_map, List.mem_filter]
  constructor
  · rintro ⟨p, ⟨hm, hs⟩, hv⟩; exact ⟨p, hm, hs, hv⟩
  · rintro ⟨p, hm, hs, hv⟩; exact ⟨p, ⟨hm, hs⟩, hv⟩

theorem listToSet_const (a : String) : ∀ l : List String,
    l ≠ [] → (∀ x ∈ l, x = a) → listToSet l = [a] := by
  have core : ∀ l : List String, (∀ x ∈ l, x = a) →
      l.foldl (fun s x => setInsert x s) [a] = [a] := by
    intro l
    induction l with
    | nil => intro _; rfl
    | cons b l ih =>
      intro h
      have hb : b = a := h b (List.mem_cons_self _ _)
      subst hb
      have : setInsert b [b] = [b] := by simp [setInsert]
      simp only [List.foldl_cons, this]
      exact ih (fun x hx => h x (List.mem_cons_of_mem _ hx))
  intro l hne h
  cases l with
  | nil => exact absurd rfl hne
  | cons b l =>
    have hb : b = a := h b (List.mem_cons_self _ _)
    subst hb
    show (b :: l).foldl (fun s x => setInsert x s) [] = [b]
    simp only [List.foldl_cons]
    show l.foldl (fun s x => setInsert x s) (setInsert b []) = [b]
    have : setInsert b [] = [b] := rfl
    rw [this]
    exact core l (fun x hx => h x (List.mem_cons_of_mem _ hx))

theorem countryMap_us_value :
    ∀ p, p ∈ COUNTRY_MAP → p.1 = "United States" → p.2 = "United States" := by
  decide

theorem countryMap_usAbbrev_value :
    ∀ p, p ∈ COUNTRY_MAP → p.1 = "US" → p.2 = "United States" := by
  decide

/-- C6: country extraction is case-insensitive and whole-word: a text whose
only matching alias is the full name `United States` extracts exactly
`United States`; a text whose only matching alias is the standalone
abbreviation `US` extracts exactly `United States`; and `USA` embedded
inside the word `USAGE` matches nothing. -/
theorem c6_country_roundtrip :
    (∀ text : String, searchWordCI "United States" text = true →
      (∀ p, p ∈ COUNTRY_MAP → searchWordCI p.1 text = true → p.1 = "United States") →
      extract_countries text = ["United States"]) ∧
    (∀ text : String, searchWordCI "US" text = true →
      (∀ p, p ∈ COUNTRY_MAP → searchWordCI p.1 text = true → p.1 = "US") →
      extract_countries text = ["United States"]) ∧
    extract_countries "USAGE" = [] := by
  refine ⟨?_, ?_, by decide⟩
  · intro text hU hOnly
    have hmem : ("United States", "United States") ∈ COUNTRY_MAP := by decide
    apply listToSet_const
    · intro hEmpty
      have : ("United States" : String) ∈
          (COUNTRY_MAP.filter (fun p => searchWordCI p.1 text)).map Prod.snd := by
        exact List.mem_map.2 ⟨_, List.mem_filter.2 ⟨hmem, hU⟩, rfl⟩
      rw [hEmpty] at this
      exact absurd this (List.not_mem_nil _)
    · intro x hx
      obtain ⟨p, hp, hv⟩ := List.mem_map.1 hx
      obtain ⟨hpm, hps⟩ := List.mem_filter.1 hp
      have hk : p.1 = "United States" := hOnly p hpm hps
      rw [← hv]
      exact countryMap_us_value p hpm hk
  · intro text hU hOnly
    have hmem : ("US", "United States") ∈ COUNTRY_MAP := by decide
    apply listToSet_const
    · intro hEmpty
      have : ("United States" : String) ∈
          (COUNTRY_MAP.filter (fun p => searchWordCI p.1 text)).map Prod.snd := by
        exact List.mem_map.2 ⟨_, List.mem_filter.2 ⟨hmem, hU⟩, rfl⟩
      rw [hEmpty] at this
      exact absurd this (List.not_mem_nil _)
    · intro x hx
      obtain ⟨p, hp, hv⟩ := List.mem_map.1 hx
      obtain ⟨hpm, hps⟩ := List.mem_filter.1 hp
      have hk : p.1 = "US" := hOnly p hpm hps
      rw [← hv]
      exact countryMap_usAbbrev_value p hpm hk

/-- C6 witness: the texts `United States` and `US` themselves satisfy the
only-matching-alias hypotheses and extract exactly `United States`. -/
theorem c6_witness :
    extract_countries "United States" = ["United States"] ∧
    extract_countries "US" = ["United States"] :=
  ⟨c6_country_roundtrip.1 "United States" (by decide) (by decide),
   c6_country_roundtrip.2.1 "US" (by decide) (by decide)⟩

/-! ## Counter lemmas (C9, C10) -/

def keysOf (m : List (String × Nat)) : List String := m.map Prod.fst

/-- The count a `Counter` holds for a key (0 when absent). -/
def cntOf (m : List (String × Nat)) (k : String) : Nat :=
  match m.find? (fun p => p.1 == k) with
  | some p => p.2
  | none => 0

/-- The specified tally: one occurrence per (description, extracted
country) pair. -/
def tallySpec (descs : List String) (c : String) : Nat :=
  (descs.map (fun d => if c ∈ extract_countries d then 1 else 0)).sum

theorem cntOf_nil (k : String) : cntOf [] k = 0 := rfl

theorem cntOf_cons (q : String × Nat) (m : List (String × Nat)) (k : String) :
    cntOf (q :: m) k = if q.1 == k then q.2 else cntOf m k := by
  by_cases h : q.1 == k
  · simp [cntOf, List.find?, h]
  · simp only [cntOf, List.find?]
    rw [Bool.not_eq_true] at h
    rw [h]
    simp

theorem updKey (k : String) (q : String × Nat) :
    ((if q.1 == k then (q.1, q.2 + 1) else q) : String × Nat).1 = q.1 := by
  split <;> rfl

theorem cntOf_map_upd (k a : String) : ∀ m : List (String × Nat),
    cntOf (m.map (fun p => if p.1 == k then (p.1, p.2 + 1) else p)) a =
      cntOf m a +
        (if a = k ∧ (m.any (fun p => p.1 == a)) = true then 1 else 0) := by
  intro m
  induction m with
  | nil => simp [cntOf_nil]
  | cons q m ih =>
    simp only [List.map_cons, List.any_cons]
    rw [cntOf_cons, cntOf_cons, updKey]
    by_cases hqa : (q.1 == a) = true
    · simp only [hqa, if_true, Bool.true_or]
      by_cases hak : a = k
      · have hqk : (q.1 == k) = true := by
          rw [beq_iff_eq] at hqa ⊢
          rw [hqa, hak]
        simp [hqk, hak]
      · have hqk : (q.1 == k) = false := by
          rw [beq_eq_false_iff_ne]
          rw [beq_iff_eq] at hqa
          rw [hqa]
          exact fun h => hak h
        simp [hqk, hak]
    · rw [Bool.not_eq_true] at hqa
      simp only [hqa, Bool.false_eq_true, if_false, Bool.false_or]
      exact ih

theorem cntOf_append_new (k a : String) : ∀ m : List (String × Nat),
    (m.any (fun p => p.1 == k)) = false →
      cntOf (m ++ [(k, 1)]) a = cntOf m a + if a = k then 1 else 0 := by
  intro m
  induction m with
  | nil =>
    intro _
    by_cases hak : a = k
    · subst hak
      simp [cntOf_nil, cntOf_cons]
    · have : (k == a) = false := by
        rw [beq_eq_false_iff_ne]
        exact fun h => hak h.symm
      simp [cntOf_nil, cntOf_cons, this, hak]
  | cons q m ih =>
    intro hany
    simp only [List.any_cons, Bool.or_eq_false_iff] at hany
    obtain ⟨hqk, hmany⟩ := hany
    rw [List.cons_append, cntOf_cons, cntOf_cons]
    by_cases hqa : (q.1 == a) = true
    · have hak : ¬(a = k) := by
        intro h
        subst h
        rw [hqa] at hqk
        cases hqk
      simp only [hqa, if_true, hak, if_false]
      omega
    · rw [Bool.not_eq_true] at hqa
      simp only [hqa, Bool.false_eq_true, if_false]
      exact ih hmany

theorem counterAdd_cnt (m : List (String × Nat)) (k a : String) :
    cntOf (counterAdd m k) a = cntOf m a + if a = k then 1 else 0 := by
  by_cases hany : (m.any (fun p => p.1 == k)) = true
  · simp only [counterAdd, hany, if_true]
    rw [cntOf_map_upd k a m]
    by_cases hak : a = k
    · subst hak
      rw [if_pos ⟨rfl, hany⟩, if_pos rfl]
    · rw [if_neg (fun h => hak h.1), if_neg hak]
  · rw [Bool.not_eq_true] at hany
    simp only [counterAdd, hany, Bool.false_eq_true, if_false]
    exact cntOf_append_new k a m hany

theorem counterInv_keys_map (k : String) (m : List (String × Nat)) :
    keysOf (m.map (fun p => if p.1 == k then (p.1, p.2 + 1) else p)) = keysOf m := by
  induction m with
  | nil => rfl
  | cons q m ih =>
    simp only [keysOf, List.map_cons] at ih ⊢
    rw [updKey]
    exact congrArg _ ih

/-- The counter invariant: duplicate-free keys, positive counts. -/
def counterInv (m : List (String × Nat)) : Prop :=
  (keysOf m).Nodup ∧ ∀ p ∈ m, 0 < p.2

theorem counterAdd_inv (m : List (String × Nat)) (k : String)
    (h : counterInv m) : counterInv (counterAdd m k) := by
  obtain ⟨hnd, hpos⟩ := h
  by_cases hany : (m.any (fun p => p.1 == k)) = true
  · simp only [counterAdd, hany, if_true]
    constructor
    · rw [counterInv_keys_map]; exact hnd
    · intro p hp
      obtain ⟨q, hq, hpq⟩ := List.mem_map.1 hp
      have := hpos q hq
      subst hpq
      split <;> simp <;> omega
  · rw [Bool.not_eq_true] at hany
    simp only [counterAdd, hany, Bool.false_eq_true, if_false]
    constructor
    · have hnotin : k ∉ keysOf m := by
        intro hin
        obtain ⟨p, hp, hpk⟩ := List.mem_map.1 hin
        have hpk' : (p.1 == k) = true := by rw [beq_iff_eq]; exact hpk
        have : (m.any (fun p => p.1 == k)) = true := List.any_eq_true.2 ⟨p, hp, hpk'⟩
        rw [hany] at this
        cases this
      simp only [keysOf, List.map_append, List.map_cons, List.map_nil]
      rw [List.nodup_append]
      exact ⟨hnd, List.nodup_singleton k, by
        intro a ha hb
        simp only [List.mem_singleton] at hb
        subst hb
        exact hnotin ha⟩
    · intro p hp
      rcases List.mem_append.1 hp with h | h
      · exact hpos p h
      · simp only [List.mem_singleton] at h
        subst h
        exact Nat.one_pos

theorem cntOf_entry : ∀ m : List (String × Nat),
    (keysOf m).Nodup → ∀ p ∈ m, cntOf m p.1 = p.2 := by
  intro m
  induction m with
  | nil => intro _ p hp; cases hp
  | cons q m ih =>
    intro hnd p hp
    have hnd' : (keysOf m).Nodup := by
      simp only [keysOf, List.map_cons, List.nodup_cons] at hnd
      exact hnd.2
    have hqnot : q.1 ∉ keysOf m := by
      simp only [keysOf, List.map_cons, List.nodup_cons] at hnd
      exact hnd.1
    rcases List.mem_cons.1 hp with h | h
    · subst h
      rw [cntOf_cons]
      simp
    · rw [cntOf_cons]
      have hne : (q.1 == p.1) = false := by
        rw [beq_eq_false_iff_ne]
        intro hEq
        exact hqnot (hEq ▸ List.mem_map.2 ⟨p, h, rfl⟩)
      rw [hne]
      simp only [Bool.false_eq_true, if_false]
      exact ih hnd' p h

theorem setInsert_sorted (a : String) : ∀ l : List String,
    l.Pairwise (· < ·) → (setInsert a l).Pairwise (· < ·) := by
  intro l
  induction l with
  | nil => intro _; simp [setInsert]
  | cons b l ih =>
    intro h
    obtain ⟨hb, hl⟩ := List.pairwise_cons.1 h
    by_cases hab : (a == b) = true
    · simpa [setInsert, hab] using h
    · have hab' : a ≠ b := fun hEq => hab (by rw [hEq]; simp)
      rw [setInsert, if_neg hab]
      by_cases hlt : a < b
      · rw [if_pos hlt]
        refine List.pairwise_cons.2 ⟨?_, h⟩
        intro x hx
        rcases List.mem_cons.1 hx with h1 | h1
        · subst h1; exact hlt
        · exact lt_trans hlt (hb x h1)
      · have hba : b < a := by
          rcases lt_trichotomy a b with h1 | h1 | h1
          · exact absurd h1 hlt
          · exact absurd h1 hab'
          · exact h1
        rw [if_neg hlt]
        refine List.pairwise_cons.2 ⟨?_, ih hl⟩
        intro x hx
        rcases (setInsert_mem x a l).1 hx with h1 | h1
        · subst h1; exact hba
        · exact hb x h1

theorem foldl_setInsert_sorted : ∀ l acc : List String,
    acc.Pairwise (· < ·) →
      (l.foldl (fun s a => setInsert a s) acc).Pairwise (· < ·) := by
  intro l
  induction l with
  | nil => intro acc h; exact h
  | cons b l ih =>
    intro acc h
    exact ih _ (setInsert_sorted b acc h)

theorem extract_countries_sorted (text : String) :
    (extract_countries text).Pairwise (· < ·) :=
  foldl_setInsert_sorted _ [] (List.Pairwise.nil)

theorem extract_countries_nodup (text : String) :
    (extract_countries text).Nodup :=
  (extract_countries_sorted text).imp ne_of_lt

theorem foldl_counterAdd_cnt (a : String) : ∀ (l : List String)
    (m : List (String × Nat)), l.Nodup →
      cntOf (l.foldl counterAdd m) a = cntOf m a + (if a ∈ l then 1 else 0) := by
  intro l
  induction l with
  | nil => intro m _; simp
  | cons x l ih =>
    intro m hnd
    obtain ⟨hx, hnd'⟩ := List.nodup_cons.1 hnd
    simp only [List.foldl_cons]
    rw [ih _ hnd', counterAdd_cnt]
    by_cases hax : a = x
    · subst hax
      have : a ∉ l := hx
      simp [this]
    · simp only [List.mem_cons]
      by_cases hal : a ∈ l
      · simp [hax, hal]
      · simp [hax, hal]

theorem countryCounter_cnt_aux (a : String) : ∀ (descs : List String)
    (m : List (String × Nat)),
      cntOf (descs.foldl (fun m d => (extract_countries d).foldl counterAdd m) m) a =
        cntOf m a + tallySpec descs a := by
  intro descs
  induction descs with
  | nil => intro m; simp [tallySpec]
  | cons d ds ih =>
    intro m
    simp only [List.foldl_cons]
    rw [ih, foldl_counterAdd_cnt a _ m (extract_countries_nodup d)]
    simp only [tallySpec, List.map_cons, List.sum_cons]
    omega

theorem countryCounter_cnt (a : String) (descs : List String) :
    cntOf (countryCounter descs) a = tallySpec descs a := by
  rw [countryCounter, countryCounter_cnt_aux]
  simp [cntOf_nil]

theorem foldl_counterAdd_inv : ∀ (l : List String) (m : List (String × Nat)),
    counterInv m → counterInv (l.foldl counterAdd m) := by
  intro l
  induction l with
  | nil => intro m h; exact h
  | cons x l ih => intro m h; exact ih _ (counterAdd_inv m x h)

theorem countryCounter_inv (descs : List String) :
    counterInv (countryCounter descs) := by
  rw [countryCounter]
  have base : counterInv [] := ⟨List.nodup_nil, fun p hp => absurd hp (List.not_mem_nil p)⟩
  revert base
  generalize ([] : List (String × Nat)) = m
  intro base
  induction descs generalizing m with
  | nil => exact base
  | cons d ds ih =>
    simp only [List.foldl_cons]
    exact ih _ (foldl_counterAdd_inv _ _ base)

theorem insertBy_mem {α : Type} (le : α → α → Bool) (a x : α) : ∀ l : List α,
    (x ∈ insertBy le a l ↔ x = a ∨ x ∈ l) := by
  intro l
  induction l with
  | nil => simp [insertBy]
  | cons b l ih =>
    simp only [insertBy]
    split
    · simp [List.mem_cons]
    · simp only [List.mem_cons, ih]
      tauto

theorem sortBy_mem {α : Type} (le : α → α → Bool) (x : α) : ∀ l : List α,
    (x ∈ sortBy le l ↔ x ∈ l) := by
  intro l
  induction l with
  | nil => simp [sortBy]
  | cons b l ih =>
    show x ∈ insertBy le b (sortBy le l) ↔ _
    rw [insertBy_mem]
    simp only [List.mem_cons, ih]

theorem insertBy_pairwise {α : Type} (le : α → α → Bool)
    (htot : ∀ a b, le a b = true ∨ le b a = true)
    (htrans : ∀ a b c, le a b = true → le b c = true → le a c = true)
    (a : α) : ∀ l : List α,
      l.Pairwise (fun x y => le x y = true) →
        (insertBy le a l).Pairwise (fun x y => le x y = true) := by
  intro l
  induction l with
  | nil => intro _; simp [insertBy]
  | cons b l ih =>
    intro h
    obtain ⟨hb, hl⟩ := List.pairwise_cons.1 h
    simp only [insertBy]
    split
    · rename_i hab
      refine List.pairwise_cons.2 ⟨?_, h⟩
      intro x hx
      rcases List.mem_cons.1 hx with h1 | h1
      · subst h1; exact hab
      · exact htrans a b x hab (hb x h1)
    · rename_i hab
      have hba : le b a = true := by
        rcases htot a b with h1 | h1
        · exact absurd h1 hab
        · exact h1
      refine List.pairwise_cons.2 ⟨?_, ih hl⟩
      intro x hx
      rcases (insertBy_mem le a x l).1 hx with h1 | h1
      · subst h1; exact hba
      · exact hb x h1

theorem sortBy_pairwise {α : Type} (le : α → α → Bool)
    (htot : ∀ a b, le a b = true ∨ le b a = true)
    (htrans : ∀ a b c, le a b = true → le b c = true → le a c = true) :
    ∀ l : List α, (sortBy le l).Pairwise (fun x y => le x y = true) := by
  intro l
  induction l with
  | nil => simp [sortBy]
  | cons b l ih => exact insertBy_pairwise le htot htrans b _ ih

/-- The `Occurrences` value of a country-occurrence row. -/
def occOf (r : List (String × Cell)) : Nat :=
  match cellOf r "Occurrences" with
  | some (Cell.num n) => n
  | _ => 0

theorem cty_rows_eq (docs : List (List Word)) :
    (build_all_tables_from_pdfs docs).cty.rows =
      (sortBy descOcc (countryCounter (ctyDescs docs))).map ctyRow := rfl

theorem ctyRow_mem_of_tally_pos (docs : List (List Word)) (c : String)
    (h : 0 < tallySpec (ctyDescs docs) c) :
    [("Country", Cell.str c),
     ("Occurrences", Cell.num (tallySpec (ctyDescs docs) c))] ∈
      (build_all_tables_from_pdfs docs).cty.rows := by
  rw [cty_rows_eq]
  have hcnt : cntOf (countryCounter (ctyDescs docs)) c = tallySpec (ctyDescs docs) c :=
    countryCounter_cnt c (ctyDescs docs)
  cases hf : (countryCounter (ctyDescs docs)).find? (fun p => p.1 == c) with
  | none =>
    have : cntOf (countryCounter (ctyDescs docs)) c = 0 := by
      simp [cntOf, hf]
    omega
  | some q =>
    have hq2 : cntOf (countryCounter (ctyDescs docs)) c = q.2 := by
      simp [cntOf, hf]
    have hqmem : q ∈ countryCounter (ctyDescs docs) := List.mem_of_find?_eq_some hf
    have hq1 : q.1 = c := by
      have := List.find?_some hf
      simpa using this
    have : ctyRow q ∈ (sortBy descOcc (countryCounter (ctyDescs docs))).map ctyRow :=
      List.mem_map.2 ⟨q, (sortBy_mem descOcc q _).2 hqmem, rfl⟩
    have hrw : ctyRow q =
        [("Country", Cell.str c),
         ("Occurrences", Cell.num (tallySpec (ctyDescs docs) c))] := by
      rw [ctyRow, hq1, ← hcnt, hq2]
    rwa [hrw] at this

/-- C9: the country-occurrence table is built from the Access Broker and
Data Breaches flat description lists only: every row records a country
with its specified tally (one occurrence per (description, distinct
extracted country) pair), every country with positive tally has its row,
and the rows are sorted in descending occurrence order. -/
theorem c9_country_table (docs : List (List Word)) :
    (∀ r, r ∈ (build_all_tables_from_pdfs docs).cty.rows →
      ∃ c n, r = [("Country", Cell.str c), ("Occurrences", Cell.num n)] ∧
        n = tallySpec (ctyDescs docs) c ∧ 0 < n) ∧
    (∀ c, 0 < tallySpec (ctyDescs docs) c →
      [("Country", Cell.str c),
       ("Occurrences", Cell.num (tallySpec (ctyDescs docs) c))] ∈
        (build_all_tables_from_pdfs docs).cty.rows) ∧
    ((build_all_tables_from_pdfs docs).cty.rows).Pairwise
      (fun r1 r2 => occOf r2 ≤ occOf r1) := by
  refine ⟨?_, fun c h => ctyRow_mem_of_tally_pos docs c h, ?_⟩
  · intro r hr
    rw [cty_rows_eq] at hr
    obtain ⟨p, hp, hrp⟩ := List.mem_map.1 hr
    have hpmem : p ∈ countryCounter (ctyDescs docs) := (sortBy_mem descOcc p _).1 hp
    have hinv := countryCounter_inv (ctyDescs docs)
    have hcnt : cntOf (countryCounter (ctyDescs docs)) p.1 = p.2 :=
      cntOf_entry _ hinv.1 p hpmem
    refine ⟨p.1, p.2, ?_, ?_, hinv.2 p hpmem⟩
    · rw [← hrp]; rfl
    · rw [← hcnt, countryCounter_cnt]
  · rw [cty_rows_eq]
    have hsorted := sortBy_pairwise descOcc
      (fun a b => by
        rcases Nat.le_total b.2 a.2 with h | h
        · exact Or.inl (by simpa [descOcc] using h)
        · exact Or.inr (by simpa [descOcc] using h))
      (fun a b c hab hbc => by
        simp only [descOcc, decide_eq_true_eq] at hab hbc ⊢
        omega)
      (countryCounter (ctyDescs docs))
    refine hsorted.map ctyRow ?_
    intro a b hab
    simp only [descOcc, decide_eq_true_eq] at hab
    show occOf (ctyRow b) ≤ occOf (ctyRow a)
    simpa [occOf, ctyRow, cellOf] using hab

/-- C9 witness: on the single-document C3 scenario the Germany row carries
its specified tally. -/
theorem c9_witness :
    [("Country", Cell.str "Germany"),
     ("Occurrences", Cell.num (tallySpec (ctyDescs
        [[⟨"ACCESS", "Bold"⟩, ⟨"ACME", "Bold"⟩, ⟨"sells", "regular"⟩,
          ⟨"access", "regular"⟩, ⟨"to", "regular"⟩, ⟨"a", "regular"⟩,
          ⟨"bank", "regular"⟩, ⟨"in", "regular"⟩, ⟨"Germany", "regular"⟩]]) "Germany"))] ∈
      (build_all_tables_from_pdfs
        [[⟨"ACCESS", "Bold"⟩, ⟨"ACME", "Bold"⟩, ⟨"sells", "regular"⟩,
          ⟨"access", "regular"⟩, ⟨"to", "regular"⟩, ⟨"a", "regular"⟩,
          ⟨"bank", "regular"⟩, ⟨"in", "regular"⟩, ⟨"Germany", "regular"⟩]]).cty.rows :=
  (c9_country_table _).2.1 "Germany" (by decide)

theorem countrySetOf_mem (x : String) : ∀ (descs : List String) (acc : List String),
    (x ∈ descs.foldl (fun s d => (extract_countries d).foldl (fun s c => setInsert c s) s) acc ↔
      x ∈ acc ∨ ∃ d ∈ descs, x ∈ extract_countries d) := by
  intro descs
  induction descs with
  | nil => simp
  | cons d ds ih =>
    intro acc
    simp only [List.foldl_cons, ih, foldl_setInsert_mem, List.mem_cons]
    constructor
    · rintro ((h | h) | ⟨e, he, hx⟩)
      · exact Or.inl h
      · exact Or.inr ⟨d, Or.inl rfl, h⟩
      · exact Or.inr ⟨e, Or.inr he, hx⟩
    · rintro (h | ⟨e, (rfl | he), hx⟩)
      · exact Or.inl (Or.inl h)
      · exact Or.inl (Or.inr hx)
      · exact Or.inr ⟨e, he, hx⟩

theorem tallySpec_pos (descs : List String) (c d : String) (hd : d ∈ descs)
    (hc : c ∈ extract_countries d) : 0 < tallySpec descs c := by
  have h1 : (1 : Nat) ∈ descs.map (fun d => if c ∈ extract_countries d then 1 else 0) :=
    List.mem_map.2 ⟨d, hd, by simp [hc]⟩
  have := List.single_le_sum (l := descs.map (fun d => if c ∈ extract_countries d then 1 else 0))
    (fun x _ => Nat.zero_le x) 1 h1
  simpa [tallySpec] using this

/-- C10 (implicit): because the alias table maps the abbreviation `MY` to
Malaysia and matching is case-insensitive whole-word, every text containing
the standalone word `my` (any casing) extracts Malaysia; such a description
adds Malaysia to its actor row's country set, and puts a Malaysia row with
positive tally into the country-occurrence table. -/
theorem c10_malaysia :
    (∀ text : String, searchWordCI "MY" text = true →
      "Malaysia" ∈ extract_countries text) ∧
    (∀ descs : List String, (∃ d ∈ descs, searchWordCI "MY" d = true) →
      "Malaysia" ∈ countrySetOf descs) ∧
    (∀ docs : List (List Word), (∃ d ∈ ctyDescs docs, searchWordCI "MY" d = true) →
      0 < tallySpec (ctyDescs docs) "Malaysia" ∧
      [("Country", Cell.str "Malaysia"),
       ("Occurrences", Cell.num (tallySpec (ctyDescs docs) "Malaysia"))] ∈
        (build_all_tables_from_pdfs docs).cty.rows) := by
  have hext : ∀ text : String, searchWordCI "MY" text = true →
      "Malaysia" ∈ extract_countries text := by
    intro text h
    exact (extract_countries_mem _ _).2 ⟨("MY", "Malaysia"), by decide, h, rfl⟩
  refine ⟨hext, ?_, ?_⟩
  · rintro descs ⟨d, hd, hs⟩
    exact (countrySetOf_mem _ descs []).2 (Or.inr ⟨d, hd, hext d hs⟩)
  · rintro docs ⟨d, hd, hs⟩
    have hpos := tallySpec_pos (ctyDescs docs) "Malaysia" d hd (hext d hs)
    exact ⟨hpos, ctyRow_mem_of_tally_pos docs "Malaysia" hpos⟩

/-- C10 witness: the ordinary English phrase `stole my credentials`
extracts Malaysia. -/
theorem c10_witness : "Malaysia" ∈ extract_countries "stole my credentials" :=
  c10_malaysia.1 "stole my credentials" (by decide)

/-! ## Actor row order (C5) -/

/-- The actor column of a category table, row by row. -/
def rowActors (df : DF) : List String :=
  df.rows.filterMap (fun r =>
    match cellOf r "Threat Actor" with
    | some (Cell.str a) => some a
    | _ => none)

/-- The actor of every incident of one category, in combined
document-then-position order over the sorted document sequence. -/
def actorsOf (docs : List (List Word)) (c : Cat) : List String :=
  (catIncidents docs c).map (fun i => i.actor)

/-- The actor keys of a category store, in insertion order. -/
def keysInc (m : List (String × List String)) : List String := m.map Prod.fst

/-- First-seen order of a name stream, continuing from already-seen `acc`. -/
def firstSeen (acc : List String) : List String → List String
  | [] => acc
  | a :: l => firstSeen (if acc.any (fun b => b == a) then acc else acc ++ [a]) l

/-- The output table of each category. -/
def catTable (docs : List (List Word)) : Cat → DF
  | .access => (build_all_tables_from_pdfs docs).acc
  | .dataBr => (build_all_tables_from_pdfs docs).dat
  | .malware => (build_all_tables_from_pdfs docs).mal
  | .other => (build_all_tables_from_pdfs docs).oth

theorem cellOf_buildRow_actor (ic : Bool) (i : Nat) (a : String)
    (ds : List String) :
    cellOf (buildRow ic i a ds) "Threat Actor" = some (Cell.str a) := by
  cases ic <;> rfl

theorem rowActors_build_df (docs : List (List Word)) (c : Cat) (ic : Bool) :
    rowActors (build_df docs c ic) = keysInc (storageInc docs c) := by
  show ((((storageInc docs c).enum).map
      (fun p => buildRow ic p.1 p.2.1 p.2.2)).filterMap (fun r =>
        match cellOf r "Threat Actor" with
        | some (Cell.str a) => some a
        | _ => none)) = keysInc (storageInc docs c)
  have core : ∀ (m : List (String × List String)) (n : Nat),
      (((m.enumFrom n).map (fun p => buildRow ic p.1 p.2.1 p.2.2)).filterMap (fun r =>
        match cellOf r "Threat Actor" with
        | some (Cell.str a) => some a
        | _ => none)) = m.map Prod.fst := by
    intro m
    induction m with
    | nil => intro n; rfl
    | cons p m ih =>
      intro n
      simp only [List.enumFrom_cons, List.map_cons, List.filterMap_cons,
        cellOf_buildRow_actor]
      rw [ih]
  exact core _ 0

theorem keysInc_map_upd (act dsc : String) (m : List (String × List String)) :
    keysInc (m.map (fun p => if p.1 == act then (p.1, p.2 ++ [dsc]) else p)) =
      keysInc m := by
  induction m with
  | nil => rfl
  | cons q m ih =>
    simp only [keysInc, List.map_cons] at ih ⊢
    have : ((if q.1 == act then (q.1, q.2 ++ [dsc]) else q) : String × List String).1 =
        q.1 := by split <;> rfl
    rw [this]
    exact congrArg _ ih

theorem keysInc_addInc (m : List (String × List String)) (act dsc : String) :
    keysInc (addInc m act dsc) =
      if (m.any (fun p => p.1 == act)) = true then keysInc m
      else keysInc m ++ [act] := by
  by_cases h : (m.any (fun p => p.1 == act)) = true
  · simp only [addInc, h, if_true]
    exact keysInc_map_upd act dsc m
  · rw [Bool.not_eq_true] at h
    simp only [addInc, h, Bool.false_eq_true, if_false, keysInc, List.map_append,
      List.map_cons, List.map_nil]

theorem any_keysInc (m : List (String × List String)) (act : String) :
    (m.any (fun p => p.1 == act)) = ((keysInc m).any (fun b => b == act)) := by
  induction m with
  | nil => rfl
  | cons q m ih =>
    simp only [keysInc, List.map_cons, List.any_cons] at ih ⊢
    rw [ih]

theorem keysInc_foldl (dummy : Unit) : ∀ (incs : List Incident)
    (m : List (String × List String)),
      keysInc (incs.foldl (fun m i => addInc m i.actor i.desc) m) =
        firstSeen (keysInc m) (incs.map (fun i => i.actor)) := by
  intro incs
  induction incs with
  | nil => intro m; rfl
  | cons i incs ih =>
    intro m
    simp only [List.foldl_cons, List.map_cons, firstSeen]
    rw [ih]
    congr 1
    rw [keysInc_addInc, any_keysInc]

theorem firstSeen_append : ∀ (l acc : List String),
    ∃ s, firstSeen acc l = acc ++ s := by
  intro l
  induction l with
  | nil => intro acc; exact ⟨[], by simp [firstSeen]⟩
  | cons a l ih =>
    intro acc
    simp only [firstSeen]
    by_cases h : (acc.any (fun b => b == a)) = true
    · rw [if_pos h]; exact ih acc
    · rw [Bool.not_eq_true] at h
      rw [h]
      simp only [Bool.false_eq_true, if_false]
      obtain ⟨s, hs⟩ := ih (acc ++ [a])
      exact ⟨[a] ++ s, by rw [hs, List.append_assoc]⟩

theorem firstSeen_mem (x : String) : ∀ (l acc : List String),
    (x ∈ firstSeen acc l ↔ x ∈ acc ∨ x ∈ l) := by
  intro l
  induction l with
  | nil => intro acc; simp [firstSeen]
  | cons a l ih =>
    intro acc
    simp only [firstSeen]
    by_cases h : (acc.any (fun b => b == a)) = true
    · have ha : a ∈ acc := by
        obtain ⟨b, hb, hba⟩ := List.any_eq_true.1 h
        have hba' : b = a := by simpa using hba
        rwa [hba'] at hb
      rw [if_pos h, ih]
      simp only [List.mem_cons]
      constructor
      · rintro (h1 | h1)
        · exact Or.inl h1
        · exact Or.inr (Or.inr h1)
      · rintro (h1 | rfl | h1)
        · exact Or.inl h1
        · exact Or.inl ha
        · exact Or.inr h1
    · rw [Bool.not_eq_true] at h
      rw [h]
      simp only [Bool.false_eq_true, if_false, ih, List.mem_append,
        List.mem_singleton, List.mem_cons]
      tauto

theorem firstSeen_order (A B : String) (hne : A ≠ B) : ∀ (l acc : List String),
    A ∉ acc → B ∉ acc → A ∈ l → B ∈ l →
      List.indexOf A l < List.indexOf B l →
      List.indexOf A (firstSeen acc l) < List.indexOf B (firstSeen acc l) := by
  intro l
  induction l with
  | nil => intro acc _ _ hA _ _; cases hA
  | cons a l ih =>
    intro acc hAacc hBacc hA hB hlt
    simp only [firstSeen]
    by_cases h : (acc.any (fun b => b == a)) = true
    · have ha : a ∈ acc := by
        obtain ⟨b, hb, hba⟩ := List.any_eq_true.1 h
        have hba' : b = a := by simpa using hba
        rwa [hba'] at hb
      have hAa : a ≠ A := fun hEq => hAacc (hEq ▸ ha)
      have hBa : a ≠ B := fun hEq => hBacc (hEq ▸ ha)
      rw [if_pos h]
      have hA' : A ∈ l := by
        rcases List.mem_cons.1 hA with h1 | h1
        · exact absurd h1.symm hAa
        · exact h1
      have hB' : B ∈ l := by
        rcases List.mem_cons.1 hB with h1 | h1
        · exact absurd h1.symm hBa
        · exact h1
      have hlt' : List.indexOf A l < List.indexOf B l := by
        rw [List.indexOf_cons_ne l hAa, List.indexOf_cons_ne l hBa] at hlt
        omega
      exact ih acc hAacc hBacc hA' hB' hlt'
    · rw [Bool.not_eq_true] at h
      rw [h]
      simp only [Bool.false_eq_true, if_false]
      by_cases hBa : B = a
      · subst hBa
        rw [List.indexOf_cons_self] at hlt
        omega
      · by_cases hAa : A = a
        · subst hAa
          obtain ⟨s, hs⟩ := firstSeen_append l (acc ++ [A])
          rw [hs]
          have hidxA : List.indexOf A ((acc ++ [A]) ++ s) = acc.length := by
            rw [List.indexOf_append_of_mem (by simp)]
            rw [List.indexOf_append_of_not_mem hAacc]
            simp
          have hB' : B ∈ l := by
            rcases List.mem_cons.1 hB with h1 | h1
            · exact absurd h1 hBa
            · exact h1
          have hBin : B ∈ (acc ++ [A]) ++ s := by
            rw [← hs]
            exact (firstSeen_mem B l (acc ++ [A])).2 (Or.inr hB')
          have hBnotin : B ∉ acc ++ [A] := by
            simp only [List.mem_append, List.mem_singleton]
            rintro (h1 | h1)
            · exact hBacc h1
            · exact hne h1.symm
          have hidxB : List.indexOf B ((acc ++ [A]) ++ s) =
              (acc ++ [A]).length + List.indexOf B s := by
            rw [List.indexOf_append_of_not_mem hBnotin]
          rw [hidxA, hidxB]
          simp only [List.length_append, List.length_singleton]
          omega
        · have hA' : A ∈ l := by
            rcases List.mem_cons.1 hA with h1 | h1
            · exact absurd h1 hAa
            · exact h1
          have hB' : B ∈ l := by
            rcases List.mem_cons.1 hB with h1 | h1
            · exact absurd h1 hBa
            · exact h1
          have hlt' : List.indexOf A l < List.indexOf B l := by
            rw [List.indexOf_cons_ne l (fun hEq => hAa hEq.symm),
              List.indexOf_cons_ne l (fun hEq => hBa hEq.symm)] at hlt
            omega
          refine ih (acc ++ [a]) ?_ ?_ hA' hB' hlt'
          · simp only [List.mem_append, List.mem_singleton]
            rintro (h1 | h1)
            · exact hAacc h1
            · exact hAa h1
          · simp only [List.mem_append, List.mem_singleton]
            rintro (h1 | h1)
            · exact hBacc h1
            · exact hBa h1

/-- C5: actor rows appear in first-seen order: if actor A's first incident
precedes actor B's first incident in the combined document-then-position
order over the (sorted) document sequence, A's row precedes B's row in that
category's table. -/
theorem c5_order_preservation (docs : List (List Word)) (c : Cat) (A B : String)
    (hne : A ≠ B) (hA : A ∈ actorsOf docs c) (hB : B ∈ actorsOf docs c)
    (hlt : List.indexOf A (actorsOf docs c) < List.indexOf B (actorsOf docs c)) :
    List.indexOf A (rowActors (catTable docs c)) <
      List.indexOf B (rowActors (catTable docs c)) := by
  have htab : rowActors (catTable docs c) = keysInc (storageInc docs c) := by
    cases c
    · exact rowActors_build_df docs .access true
    · exact rowActors_build_df docs .dataBr true
    · exact rowActors_build_df docs .malware false
    · exact rowActors_build_df docs .other false
  rw [htab]
  have hks : keysInc (storageInc docs c) = firstSeen [] (actorsOf docs c) := by
    rw [storageInc, keysInc_foldl ()]
    rfl
  rw [hks]
  exact firstSeen_order A B hne (actorsOf docs c) []
    (List.not_mem_nil A) (List.not_mem_nil B) hA hB hlt

/-- C5 witness: two actors in one document, first incident of `AAA` before
the first of `BBB`; the rows come out in that order. -/
theorem c5_order_witness :
    List.indexOf "AAA" (rowActors (catTable
      [[⟨"ACCESS", "Bold"⟩, ⟨"AAA", "Bold"⟩, ⟨"w", "r"⟩,
        ⟨"BBB", "Bold"⟩, ⟨"v", "r"⟩]] .access)) <
    List.indexOf "BBB" (rowActors (catTable
      [[⟨"ACCESS", "Bold"⟩, ⟨"AAA", "Bold"⟩, ⟨"w", "r"⟩,
        ⟨"BBB", "Bold"⟩, ⟨"v", "r"⟩]] .access)) :=
  c5_order_preservation _ .access "AAA" "BBB" (by decide) (by decide) (by decide)
    (by decide)

/-! ## Cleaning idempotence (C8): character facts -/

theorem isUpper_iff (c : Char) : c.isUpper = true ↔ 65 ≤ c.toNat ∧ c.toNat ≤ 90 := by
  simp [Char.isUpper, UInt32.le_def, BitVec.le_def, Char.toNat, UInt32.toNat]

theorem isLower_iff (c : Char) : c.isLower = true ↔ 97 ≤ c.toNat ∧ c.toNat ≤ 122 := by
  simp [Char.isLower, UInt32.le_def, BitVec.le_def, Char.toNat, UInt32.toNat]

theorem isDigit_iff (c : Char) : c.isDigit = true ↔ 48 ≤ c.toNat ∧ c.toNat ≤ 57 := by
  simp [Char.isDigit, UInt32.le_def, BitVec.le_def, Char.toNat, UInt32.toNat]

theorem toNat_ofNat_valid {n : Nat} (h : n.isValidChar) : (Char.ofNat n).toNat = n := by
  rw [Char.ofNat, dif_pos h]
  rfl

theorem underscore_iff (c : Char) : (c == '_') = true ↔ c.toNat = 95 := by
  constructor
  · intro h
    have : c = '_' := by simpa using h
    subst this; rfl
  · intro h
    have : c.val = '_'.val := by
      have h1 : c.val.toNat = 95 := h
      have h2 : ('_'.val).toNat = 95 := rfl
      exact UInt32.toNat.inj (h1.trans h2.symm)
    simp [Char.ext_iff, this]

theorem isWordChar_iff (c : Char) : isWordChar c = true ↔
    (48 ≤ c.toNat ∧ c.toNat ≤ 57) ∨ (65 ≤ c.toNat ∧ c.toNat ≤ 90) ∨
    (97 ≤ c.toNat ∧ c.toNat ≤ 122) ∨ c.toNat = 95 := by
  simp only [isWordChar, Char.isAlphanum, Char.isAlpha, Bool.or_eq_true,
    isUpper_iff, isLower_iff, isDigit_iff, underscore_iff]
  tauto

theorem toLower_toNat (c : Char) : c.toLower.toNat =
    if 65 ≤ c.toNat ∧ c.toNat ≤ 90 then c.toNat + 32 else c.toNat := by
  rw [Char.toLower]
  split
  · exact toNat_ofNat_valid (Or.inl (by omega))
  · rfl

theorem isWordChar_toLower (c : Char) : isWordChar c.toLower = isWordChar c := by
  have ht := toLower_toNat c
  rw [Bool.eq_iff_iff, isWordChar_iff, isWordChar_iff]
  by_cases h : 65 ≤ c.toNat ∧ c.toNat ≤ 90
  · rw [if_pos h] at ht
    rw [ht]
    omega
  · rw [if_neg h] at ht
    rw [ht]

theorem ciEq_word (a b : Char) (h : ciEq a b = true) :
    isWordChar a = isWordChar b := by
  have hl : a.toLower = b.toLower := by simpa [ciEq] using h
  rw [← isWordChar_toLower a, ← isWordChar_toLower b, hl]

theorem ciEq_comm (a b : Char) : ciEq a b = ciEq b a := by
  rw [Bool.eq_iff_iff]
  simp only [ciEq, beq_iff_eq]
  exact eq_comm

theorem isWS_eq_chars (c : Char) (h : isWS c = true) :
    c.toNat = 32 ∨ c.toNat = 9 ∨ c.toNat = 10 ∨ c.toNat = 13 ∨
    c.toNat = 11 ∨ c.toNat = 12 := by
  simp only [isWS, Bool.or_eq_true, beq_iff_eq] at h
  rcases h with ((((h | h) | h) | h) | h) | h
  · subst h; exact Or.inl rfl
  · subst h; exact Or.inr (Or.inl rfl)
  · subst h; exact Or.inr (Or.inr (Or.inl rfl))
  · subst h; exact Or.inr (Or.inr (Or.inr (Or.inl rfl)))
  · have : c.val.toNat = (11 : UInt32).toNat := congrArg UInt32.toNat (by simpa using h)
    exact Or.inr (Or.inr (Or.inr (Or.inr (Or.inl this))))
  · have : c.val.toNat = (12 : UInt32).toNat := congrArg UInt32.toNat (by simpa using h)
    exact Or.inr (Or.inr (Or.inr (Or.inr (Or.inr this))))

theorem isWS_not_word (c : Char) (h : isWS c = true) : isWordChar c = false := by
  rcases Bool.eq_false_or_eq_true (isWordChar c) with h1 | h1
  · exfalso
    have h2 := (isWordChar_iff c).1 h1
    have h3 := isWS_eq_chars c h
    omega
  · exact h1

/-! ## Cleaning idempotence (C8): word runs -/

/-- Case-insensitive equality of character lists. -/
def ciListEq : List Char → List Char → Bool
  | [], [] => true
  | a :: as, b :: bs => ciEq a b && ciListEq as bs
  | _, _ => false

theorem lenDropWhileLe {α : Type} (p : α → Bool) :
    ∀ l : List α, (l.dropWhile p).length ≤ l.length
  | [] => le_refl _
  | a :: l => by
    rw [List.dropWhile_cons]
    split
    · exact le_trans (lenDropWhileLe p l) (Nat.le_succ _)
    · exact le_refl _

/-- The maximal runs of word characters of a text, in order. -/
def wordRuns : List Char → List (List Char)
  | [] => []
  | c :: cs =>
    if isWordChar c then
      (c :: cs.takeWhile isWordChar) :: wordRuns (cs.dropWhile isWordChar)
    else wordRuns cs
termination_by t => t.length
decreasing_by
  all_goals simp only [List.length_cons]
  · exact Nat.lt_succ_of_le (lenDropWhileLe _ _)
  · omega

theorem wordRuns_nil : wordRuns [] = [] := by rw [wordRuns]

theorem wordRuns_cons_word (c : Char) (cs : List Char) (h : isWordChar c = true) :
    wordRuns (c :: cs) =
      (c :: cs.takeWhile isWordChar) :: wordRuns (cs.dropWhile isWordChar) := by
  rw [wordRuns, if_pos h]

theorem wordRuns_cons_not (c : Char) (cs : List Char) (h : isWordChar c = false) :
    wordRuns (c :: cs) = wordRuns cs := by
  rw [wordRuns, if_neg (by rw [h]; simp)]

theorem ciListEq_length : ∀ r K : List Char, ciListEq r K = true → r.length = K.length
  | [], [], _ => rfl
  | a :: as, b :: bs, h => by
    simp only [ciListEq, Bool.and_eq_true] at h
    simp only [List.length_cons, ciListEq_length as bs h.2]
  | [], _ :: _, h => by simp [ciListEq] at h
  | _ :: _, [], h => by simp [ciListEq] at h

theorem takeWhile_nil_of_head {α : Type} {p : α → Bool} (s : List α)
    (hs : ∀ d, s.head? = some d → p d = false) : s.takeWhile p = [] := by
  cases s with
  | nil => rfl
  | cons d ds =>
    rw [List.takeWhile_cons, hs d rfl]
    simp

theorem dropWhile_self_of_head {α : Type} {p : α → Bool} (s : List α)
    (hs : ∀ d, s.head? = some d → p d = false) : s.dropWhile p = s := by
  cases s with
  | nil => rfl
  | cons d ds =>
    rw [List.dropWhile_cons, hs d rfl]
    simp

theorem wordRuns_all_nonword : ∀ s : List Char,
    (∀ c ∈ s, isWordChar c = false) → wordRuns s = [] := by
  intro s
  induction s with
  | nil => intro _; exact wordRuns_nil
  | cons c cs ih =>
    intro h
    rw [wordRuns_cons_not c cs (h c (List.mem_cons_self _ _))]
    exact ih (fun x hx => h x (List.mem_cons_of_mem _ hx))

theorem wordRuns_append_nonword (s : List Char)
    (hs : ∀ c ∈ s, isWordChar c = false) :
    ∀ t : List Char, wordRuns (t ++ s) = wordRuns t
  | [] => by
    rw [List.nil_append, wordRuns_nil]
    exact wordRuns_all_nonword s hs
  | c :: cs => by
    by_cases hc : isWordChar c = true
    · rw [List.cons_append, wordRuns_cons_word _ _ hc, wordRuns_cons_word _ _ hc]
      by_cases hall : ∀ x ∈ cs, isWordChar x = true
      · rw [List.takeWhile_append_of_pos hall, List.dropWhile_append_of_pos hall]
        rw [takeWhile_nil_of_head s (fun d hd => hs d (by
          cases s with
          | nil => cases hd
          | cons e es => exact (Option.some_inj.1 hd) ▸ List.mem_cons_self _ _))]
        rw [dropWhile_self_of_head s (fun d hd => hs d (by
          cases s with
          | nil => cases hd
          | cons e es => exact (Option.some_inj.1 hd) ▸ List.mem_cons_self _ _))]
        rw [List.takeWhile_eq_self_iff.2 hall]
        rw [List.dropWhile_eq_nil_iff.2 hall]
        rw [List.append_nil, wordRuns_nil]
        exact congrArg (fun rs => (c :: cs) :: rs) (wordRuns_all_nonword s hs)
      · have htw : (cs.takeWhile isWordChar).length ≠ cs.length := by
          intro hlen
          exact hall (fun x hx =>
            List.mem_takeWhile_imp
              ((List.takeWhile_prefix isWordChar).eq_of_length hlen ▸ hx))
        rw [List.takeWhile_append, if_neg htw]
        have hdw : ¬((cs.dropWhile isWordChar).isEmpty = true) := by
          intro hemp
          exact hall (fun x hx => by
            have : cs.dropWhile isWordChar = [] := by
              simpa [List.isEmpty_iff] using hemp
            have := List.dropWhile_eq_nil_iff.1 this
            exact this x hx)
        rw [List.dropWhile_append, if_neg hdw]
        rw [wordRuns_append_nonword s hs (cs.dropWhile isWordChar)]
    · have hc' : isWordChar c = false := by
        rw [← Bool.not_eq_true]
        exact hc
      rw [List.cons_append, wordRuns_cons_not _ _ hc', wordRuns_cons_not _ _ hc']
      exact wordRuns_append_nonword s hs cs
termination_by t => t.length
decreasing_by
  · simp only [List.length_cons]
    exact Nat.lt_succ_of_le (lenDropWhileLe _ _)
  · simp

theorem wordRuns_run_append (r s : List Char) (hr : r ≠ [])
    (hw : ∀ c ∈ r, isWordChar c = true)
    (hs : ∀ d, s.head? = some d → isWordChar d = false) :
    wordRuns (r ++ s) = r :: wordRuns s := by
  cases r with
  | nil => exact absurd rfl hr
  | cons c cs =>
    rw [List.cons_append, wordRuns_cons_word _ _ (hw c (List.mem_cons_self _ _))]
    rw [List.takeWhile_append_of_pos (fun x hx => hw x (List.mem_cons_of_mem _ hx))]
    rw [List.dropWhile_append_of_pos (fun x hx => hw x (List.mem_cons_of_mem _ hx))]
    rw [takeWhile_nil_of_head s hs, dropWhile_self_of_head s hs, List.append_nil]

theorem startsWithCI_word : ∀ (K t : List Char), startsWithCI K t = true →
    (∀ x ∈ K, isWordChar x = true) → ∀ x ∈ t.take K.length, isWordChar x = true := by
  intro K
  induction K with
  | nil => intro t _ _ x hx; simp at hx
  | cons k ks ih =>
    intro t hs hK x hx
    cases t with
    | nil => simp [startsWithCI] at hs
    | cons c cs =>
      simp only [startsWithCI, Bool.and_eq_true] at hs
      simp only [List.length_cons, List.take_succ_cons, List.mem_cons] at hx
      rcases hx with rfl | hx
      · rw [← ciEq_word k x hs.1]
        exact hK k (List.mem_cons_self _ _)
      · exact ih cs hs.2 (fun y hy => hK y (List.mem_cons_of_mem _ hy)) x hx

theorem matchCore_eq_ciList : ∀ (K cs : List Char) (prev : Char),
    (∀ x ∈ K, isWordChar x = true) → isWordChar prev = true →
    (startsWithCI K cs &&
      boundaryB ((prev :: cs.take K.length).getLast?) ((cs.drop K.length).head?)) =
    ciListEq (cs.takeWhile isWordChar) K := by
  intro K
  induction K with
  | nil =>
    intro cs prev _ hprev
    simp only [startsWithCI, Bool.true_and, List.length_nil, List.take_zero,
      List.drop_zero]
    cases cs with
    | nil => simp [boundaryB, bOpt, hprev, ciListEq]
    | cons c cs' =>
      cases hc : isWordChar c
      · simp [boundaryB, bOpt, hprev, hc, List.takeWhile_cons, ciListEq]
      · simp [boundaryB, bOpt, hprev, hc, List.takeWhile_cons, ciListEq]
  | cons k ks ih =>
    intro cs prev hK hprev
    cases cs with
    | nil => simp [startsWithCI, List.takeWhile_nil, ciListEq]
    | cons c cs' =>
      simp only [startsWithCI, List.length_cons, List.take_succ_cons,
        List.drop_succ_cons, List.getLast?_cons_cons]
      cases hkc : ciEq k c
      · simp only [Bool.false_and]
        cases hc : isWordChar c
        · rw [takeWhile_nil_of_head (c :: cs') (fun d hd => by
            cases Option.some_inj.1 hd; exact hc)]
          simp [ciListEq]
        · rw [List.takeWhile_cons, hc]
          simp only [if_true, ciListEq]
          rw [ciEq_comm c k, hkc]
          simp
      · have hc : isWordChar c = true := by
          rw [← ciEq_word k c hkc]
          exact hK k (List.mem_cons_self _ _)
        have hrec := ih cs' c (fun y hy => hK y (List.mem_cons_of_mem _ hy)) hc
        rw [Bool.true_and]
        rw [List.takeWhile_cons, hc]
        simp only [if_true, ciListEq]
        rw [ciEq_comm c k, hkc, Bool.true_and]
        exact hrec

theorem bOpt_some (c : Char) : bOpt (some c) = isWordChar c := rfl

theorem matchHere_eq (k : Char) (ks : List Char) (l : Option Char) (c : Char)
    (cs : List Char) (hK : ∀ x ∈ k :: ks, isWordChar x = true) :
    matchHere k ks l (c :: cs) =
      ((!bOpt l) && ciListEq ((c :: cs).takeWhile isWordChar) (k :: ks)) := by
  cases hl : bOpt l
  · cases hc : isWordChar c
    · have hB : boundaryB l (c :: cs).head? = false := by
        simp only [boundaryB, List.head?_cons, hl, bOpt_some, hc]
        rfl
      rw [matchHere, hB, Bool.false_and]
      rw [takeWhile_nil_of_head (c :: cs) (fun d hd => by
        cases Option.some_inj.1 hd; exact hc)]
      simp [ciListEq]
    · have hB : boundaryB l (c :: cs).head? = true := by
        simp only [boundaryB, List.head?_cons, hl, bOpt_some, hc]
        rfl
      rw [matchHere, hB, Bool.true_and, Bool.not_false, Bool.true_and]
      have hgl : ((c :: cs).take (ks.length + 1)).getLast? =
          (('a' : Char) :: (c :: cs).take (ks.length + 1)).getLast? := by
        rw [List.take_succ_cons, List.getLast?_cons_cons]
      rw [hgl]
      exact matchCore_eq_ciList (k :: ks) (c :: cs) 'a' hK (by decide)
  · rw [Bool.not_true, Bool.false_and]
    cases hc : isWordChar c
    · have hB : boundaryB l (c :: cs).head? = true := by
        simp only [boundaryB, List.head?_cons, hl, bOpt_some, hc]
        rfl
      rw [matchHere, hB, Bool.true_and]
      have hS : startsWithCI (k :: ks) (c :: cs) = false := by
        cases hkc : ciEq k c
        · simp [startsWithCI, hkc]
        · exfalso
          have := ciEq_word k c hkc
          rw [hK k (List.mem_cons_self _ _)] at this
          rw [hc] at this
          cases this
      rw [hS, Bool.false_and]
    · have hB : boundaryB l (c :: cs).head? = false := by
        simp only [boundaryB, List.head?_cons, hl, bOpt_some, hc]
        rfl
      rw [matchHere, hB]
      simp

theorem searchFrom_runs (k : Char) (ks : List Char)
    (hK : ∀ x ∈ k :: ks, isWordChar x = true) :
    ∀ (t : List Char) (l : Option Char),
      searchFrom k ks l t =
        ((if bOpt l then wordRuns (t.dropWhile isWordChar) else wordRuns t).any
          (fun r => ciListEq r (k :: ks))) := by
  intro t
  induction t with
  | nil => intro l; cases hb : bOpt l <;> simp [searchFrom, wordRuns_nil]
  | cons c cs ih =>
    intro l
    rw [searchFrom, matchHere_eq k ks l c cs hK, ih (some c), bOpt_some]
    cases hl : bOpt l
    · simp only [Bool.not_false, Bool.true_and, Bool.false_eq_true, if_false]
      cases hc : isWordChar c
      · simp only [Bool.false_eq_true, if_false]
        rw [takeWhile_nil_of_head (c :: cs) (fun d hd => by
          cases Option.some_inj.1 hd; exact hc)]
        rw [wordRuns_cons_not c cs hc]
        simp [ciListEq]
      · simp only [if_true]
        rw [List.takeWhile_cons, hc]
        simp only [if_true]
        rw [wordRuns_cons_word c cs hc, List.any_cons]
    · simp only [Bool.not_true, Bool.false_and, Bool.false_or, if_true]
      cases hc : isWordChar c
      · simp only [Bool.false_eq_true, if_false]
        rw [List.dropWhile_cons, hc]
        simp only [Bool.false_eq_true, if_false]
        rw [wordRuns_cons_not c cs hc]
      · simp only [if_true]
        rw [List.dropWhile_cons, hc]
        simp only [if_true]

theorem sub_no_match (k : Char) (ks : List Char) :
    ∀ (t : List Char) (l : Option Char),
      searchFrom k ks l t = false → subFrom k ks l t = t := by
  intro t
  induction t with
  | nil => intro l _; exact subFrom_nil k ks l
  | cons c cs ih =>
    intro l h
    rw [searchFrom, Bool.or_eq_false_iff] at h
    rw [subFrom_cons, if_neg (by rw [h.1]; simp)]
    rw [ih (some c) h.2]

theorem drop_takeWhile_len {α : Type} (p : α → Bool) : ∀ t : List α,
    t.drop (t.takeWhile p).length = t.dropWhile p := by
  intro t
  induction t with
  | nil => rfl
  | cons c cs ih =>
    rw [List.takeWhile_cons, List.dropWhile_cons]
    cases hc : p c
    · simp
    · simp only [if_true, List.length_cons, List.drop_succ_cons]
      exact ih

theorem take_takeWhile_len {α : Type} (p : α → Bool) : ∀ t : List α,
    t.take (t.takeWhile p).length = t.takeWhile p := by
  intro t
  induction t with
  | nil => rfl
  | cons c cs ih =>
    rw [List.takeWhile_cons]
    cases hc : p c
    · simp
    · simp only [if_true, List.length_cons, List.take_succ_cons]
      rw [ih]

theorem ciListEq_nil_cons (k : Char) (ks : List Char) :
    ciListEq [] (k :: ks) = false := rfl

theorem subFrom_head_nonword (k : Char) (ks : List Char)
    (hK : ∀ x ∈ k :: ks, isWordChar x = true) (t : List Char)
    (ht : ∀ d, t.head? = some d → isWordChar d = false) (l l' : Option Char) :
    subFrom k ks l t = subFrom k ks l' t := by
  cases t with
  | nil => rfl
  | cons c cs =>
    have hc : isWordChar c = false := ht c rfl
    have htw : (c :: cs).takeWhile isWordChar = [] :=
      takeWhile_nil_of_head (c :: cs) (fun d hd => by
        cases Option.some_inj.1 hd; exact hc)
    rw [subFrom_cons, subFrom_cons, matchHere_eq _ _ _ _ _ hK,
      matchHere_eq _ _ _ _ _ hK, htw, ciListEq_nil_cons]
    simp

theorem subFrom_inRun (k : Char) (ks : List Char)
    (hK : ∀ x ∈ k :: ks, isWordChar x = true) :
    ∀ (t : List Char) (l l' : Option Char), bOpt l = true →
      subFrom k ks l t =
        t.takeWhile isWordChar ++ subFrom k ks l' (t.dropWhile isWordChar) := by
  intro t
  induction t with
  | nil => intro l l' _; rw [subFrom_nil, List.takeWhile_nil, List.dropWhile_nil,
      subFrom_nil]; rfl
  | cons c cs ih =>
    intro l l' hl
    cases hc : isWordChar c
    · rw [List.takeWhile_cons, hc]
      simp only [Bool.false_eq_true, if_false, List.nil_append]
      rw [List.dropWhile_cons, hc]
      simp only [Bool.false_eq_true, if_false]
      exact subFrom_head_nonword k ks hK (c :: cs) (fun d hd => by
        cases Option.some_inj.1 hd; exact hc) l l'
    · rw [subFrom_cons, matchHere_eq _ _ _ _ _ hK, hl]
      simp only [Bool.not_true, Bool.false_and, Bool.false_eq_true, if_false]
      rw [ih (some c) l' (by rw [bOpt_some, hc])]
      rw [List.takeWhile_cons, hc, List.dropWhile_cons, hc]
      simp

theorem subFrom_out_head (k : Char) (ks : List Char)
    (hK : ∀ x ∈ k :: ks, isWordChar x = true) (t : List Char)
    (ht : ∀ d, t.head? = some d → isWordChar d = false) (l : Option Char) :
    ∀ d, (subFrom k ks l t).head? = some d → isWordChar d = false := by
  cases t with
  | nil => rw [subFrom_nil]; intro d hd; cases hd
  | cons c cs =>
    have hc : isWordChar c = false := ht c rfl
    have htw : (c :: cs).takeWhile isWordChar = [] :=
      takeWhile_nil_of_head (c :: cs) (fun d hd => by
        cases Option.some_inj.1 hd; exact hc)
    rw [subFrom_cons, matchHere_eq _ _ _ _ _ hK, htw, ciListEq_nil_cons]
    simp only [Bool.and_false, Bool.false_eq_true, if_false]
    intro d hd
    cases Option.some_inj.1 hd
    exact hc

theorem wordRuns_subFrom (k : Char) (ks : List Char)
    (hK : ∀ x ∈ k :: ks, isWordChar x = true) :
    ∀ (t : List Char) (l : Option Char), bOpt l = false →
      wordRuns (subFrom k ks l t) =
        (wordRuns t).filter (fun r => !ciListEq r (k :: ks))
  | [], l, hl => by
    rw [subFrom_nil, wordRuns_nil]
    rfl
  | c :: cs, l, hl => by
    cases hc : isWordChar c
    · have htw : (c :: cs).takeWhile isWordChar = [] :=
        takeWhile_nil_of_head (c :: cs) (fun d hd => by
          cases Option.some_inj.1 hd; exact hc)
      rw [subFrom_cons, matchHere_eq _ _ _ _ _ hK, htw, ciListEq_nil_cons]
      simp only [Bool.and_false, Bool.false_eq_true, if_false]
      rw [wordRuns_cons_not c _ hc, wordRuns_cons_not c cs hc]
      exact wordRuns_subFrom k ks hK cs (some c) (by rw [bOpt_some, hc])
    · have htw : (c :: cs).takeWhile isWordChar = c :: cs.takeWhile isWordChar := by
        rw [List.takeWhile_cons, hc]
        simp
      have hdw : (c :: cs).dropWhile isWordChar = cs.dropWhile isWordChar := by
        rw [List.dropWhile_cons, hc]
        simp
      have hrest : ∀ d, ((c :: cs).dropWhile isWordChar).head? = some d →
          isWordChar d = false := by
        intro d hd
        have := List.head?_dropWhile_not isWordChar (c :: cs)
        rw [hd] at this
        exact this
      rw [subFrom_cons, matchHere_eq _ _ _ _ _ hK, hl, Bool.not_false, Bool.true_and,
        htw]
      cases hM : ciListEq (c :: cs.takeWhile isWordChar) (k :: ks)
      · simp only [Bool.false_eq_true, if_false]
        rw [subFrom_inRun k ks hK cs (some c) none (by rw [bOpt_some, hc])]
        have happ : c :: (cs.takeWhile isWordChar ++
            subFrom k ks none (cs.dropWhile isWordChar)) =
            (c :: cs.takeWhile isWordChar) ++
              subFrom k ks none (cs.dropWhile isWordChar) := rfl
        rw [happ]
        rw [wordRuns_run_append (c :: cs.takeWhile isWordChar) _
          (by simp)
          (by
            intro x hx
            rcases List.mem_cons.1 hx with rfl | hx
            · exact hc
            · exact List.mem_takeWhile_imp hx)
          (subFrom_out_head k ks hK _ (by rw [← hdw]; exact hrest) none)]
        rw [wordRuns_subFrom k ks hK (cs.dropWhile isWordChar) none rfl]
        rw [wordRuns_cons_word c cs hc, List.filter_cons]
        rw [hM]
        simp
      · simp only [if_true]
        have hlen : (c :: cs.takeWhile isWordChar).length = ks.length + 1 := by
          have := ciListEq_length _ _ hM
          simpa using this
        have hdrop : (c :: cs).drop (ks.length + 1) = cs.dropWhile isWordChar := by
          rw [← hlen, ← htw, drop_takeWhile_len, hdw]
        rw [hdrop]
        rw [subFrom_head_nonword k ks hK (cs.dropWhile isWordChar)
          (by rw [← hdw]; exact hrest) _ none]
        rw [wordRuns_subFrom k ks hK (cs.dropWhile isWordChar) none rfl]
        rw [wordRuns_cons_word c cs hc, List.filter_cons]
        have htw' : c :: cs.takeWhile isWordChar = (c :: cs).takeWhile isWordChar :=
          htw.symm
        rw [hM]
        simp
termination_by t _ _ => t.length
decreasing_by
  · simp only [List.length_cons]
    omega
  · simp only [List.length_cons]
    exact Nat.lt_succ_of_le (lenDropWhileLe _ _)
  · simp only [List.length_cons]
    exact Nat.lt_succ_of_le (lenDropWhileLe _ _)

theorem word_not_ws (c : Char) (h : isWordChar c = true) : isWS c = false := by
  cases hw : isWS c
  · rfl
  · rw [isWS_not_word c hw] at h
    cases h

theorem collapseAux_nil (b : Bool) : collapseAux b [] = [] := rfl

theorem collapseAux_cons (b : Bool) (c : Char) (cs : List Char) :
    collapseAux b (c :: cs) =
      if isWS c then
        if b then collapseAux true cs else ' ' :: collapseAux true cs
      else c :: collapseAux false cs := rfl

theorem collapseAux_word_prefix : ∀ (w r : List Char),
    (∀ x ∈ w, isWordChar x = true) →
      collapseAux false (w ++ r) = w ++ collapseAux false r := by
  intro w
  induction w with
  | nil => intro r _; rfl
  | cons c ws ih =>
    intro r h
    rw [List.cons_append, collapseAux_cons,
      if_neg (by rw [word_not_ws c (h c (List.mem_cons_self _ _))]; simp)]
    rw [ih r (fun x hx => h x (List.mem_cons_of_mem _ hx))]
    rfl

theorem collapseAux_head_nonword (rest : List Char)
    (hrest : ∀ d, rest.head? = some d → isWordChar d = false) :
    ∀ d, (collapseAux false rest).head? = some d → isWordChar d = false := by
  cases rest with
  | nil => intro d hd; cases hd
  | cons e es =>
    have he : isWordChar e = false := hrest e rfl
    rw [collapseAux_cons]
    by_cases hw : isWS e = true
    · rw [if_pos hw]
      simp only [if_false, Bool.false_eq_true]
      intro d hd
      cases Option.some_inj.1 hd
      decide
    · rw [if_neg hw]
      intro d hd
      cases Option.some_inj.1 hd
      exact he

theorem wordRuns_collapseAux : ∀ (t : List Char) (b : Bool),
    wordRuns (collapseAux b t) = wordRuns t
  | [], _ => rfl
  | c :: cs, b => by
    rw [collapseAux_cons]
    by_cases hw : isWS c = true
    · have hc : isWordChar c = false := isWS_not_word c hw
      rw [if_pos hw, wordRuns_cons_not c cs hc]
      cases b
      · simp only [Bool.false_eq_true, if_false]
        rw [wordRuns_cons_not ' ' _ (by decide)]
        exact wordRuns_collapseAux cs true
      · simp only [if_true]
        exact wordRuns_collapseAux cs true
    · rw [if_neg hw]
      cases hc : isWordChar c
      · rw [wordRuns_cons_not c _ hc, wordRuns_cons_not c cs hc]
        exact wordRuns_collapseAux cs false
      · have hsplit : cs = cs.takeWhile isWordChar ++ cs.dropWhile isWordChar :=
          (List.takeWhile_append_dropWhile isWordChar cs).symm
        have hrest : ∀ d, (cs.dropWhile isWordChar).head? = some d →
            isWordChar d = false := by
          intro d hd
          have := List.head?_dropWhile_not isWordChar cs
          rw [hd] at this
          exact this
        have hcol : collapseAux false cs =
            cs.takeWhile isWordChar ++
              collapseAux false (cs.dropWhile isWordChar) := by
          conv_lhs => rw [hsplit]
          exact collapseAux_word_prefix _ _ (fun x hx => List.mem_takeWhile_imp hx)
        rw [hcol]
        have happ : c :: (cs.takeWhile isWordChar ++
            collapseAux false (cs.dropWhile isWordChar)) =
            (c :: cs.takeWhile isWordChar) ++
              collapseAux false (cs.dropWhile isWordChar) := rfl
        rw [happ]
        rw [wordRuns_run_append _ _ (by simp)
          (by
            intro x hx
            rcases List.mem_cons.1 hx with rfl | hx
            · exact hc
            · exact List.mem_takeWhile_imp hx)
          (collapseAux_head_nonword _ hrest)]
        rw [wordRuns_cons_word c cs hc]
        rw [wordRuns_collapseAux (cs.dropWhile isWordChar) false]
termination_by t _ => t.length
decreasing_by
  · simp
  · simp
  · simp
  · simp only [List.length_cons]
    exact Nat.lt_succ_of_le (lenDropWhileLe _ _)

theorem wordRuns_dropWhileWS : ∀ t : List Char,
    wordRuns (t.dropWhile isWS) = wordRuns t := by
  intro t
  induction t with
  | nil => rfl
  | cons c cs ih =>
    rw [List.dropWhile_cons]
    by_cases hw : isWS c = true
    · rw [if_pos hw, ih, wordRuns_cons_not c cs (isWS_not_word c hw)]
    · rw [if_neg hw]

theorem wordRuns_stripL (t : List Char) : wordRuns (stripL t) = wordRuns t := by
  rw [stripL]
  have h1 : wordRuns (t.dropWhile isWS) = wordRuns t := wordRuns_dropWhileWS t
  set a := t.dropWhile isWS with ha
  have hsplit : a = ((a.reverse.dropWhile isWS).reverse) ++
      ((a.reverse.takeWhile isWS).reverse) := by
    conv_lhs => rw [← List.reverse_reverse a]
    conv_lhs => rw [← List.takeWhile_append_dropWhile isWS a.reverse]
    rw [List.reverse_append]
  have hws : ∀ x ∈ (a.reverse.takeWhile isWS).reverse, isWordChar x = false := by
    intro x hx
    rw [List.mem_reverse] at hx
    exact isWS_not_word x (List.mem_takeWhile_imp hx)
  calc wordRuns (a.reverse.dropWhile isWS).reverse
      = wordRuns ((a.reverse.dropWhile isWS).reverse ++
          (a.reverse.takeWhile isWS).reverse) :=
        (wordRuns_append_nonword _ hws _).symm
    _ = wordRuns a := by rw [← hsplit]
    _ = wordRuns t := h1

/-- Whitespace normal form: every whitespace character is a plain space and
no two whitespace characters are adjacent. -/
def normWS (t : List Char) : Prop :=
  (∀ c ∈ t, isWS c = true → c = ' ') ∧
    t.Chain' (fun a b => ¬(isWS a = true ∧ isWS b = true))

theorem collapseAux_true_head (cs : List Char) :
    ∀ d, (collapseAux true cs).head? = some d → isWS d = false := by
  induction cs with
  | nil => intro d hd; cases hd
  | cons e es ih =>
    rw [collapseAux_cons]
    by_cases hw : isWS e = true
    · rw [if_pos hw]
      simp only [if_true]
      exact ih
    · rw [if_neg hw]
      intro d hd
      cases Option.some_inj.1 hd
      rw [← Bool.not_eq_true]
      exact hw

theorem collapseAux_normWS : ∀ (t : List Char) (b : Bool),
    normWS (collapseAux b t) := by
  intro t
  induction t with
  | nil => intro b; exact ⟨fun c hc => absurd hc (List.not_mem_nil c), List.chain'_nil⟩
  | cons c cs ih =>
    intro b
    rw [collapseAux_cons]
    by_cases hw : isWS c = true
    · rw [if_pos hw]
      cases b
      · simp only [Bool.false_eq_true, if_false]
        obtain ⟨hmem, hchain⟩ := ih true
        refine ⟨?_, ?_⟩
        · intro x hx hxw
          rcases List.mem_cons.1 hx with rfl | hx
          · rfl
          · exact hmem x hx hxw
        · rw [List.chain'_cons']
          refine ⟨?_, hchain⟩
          intro y hy
          intro ⟨_, hyw⟩
          rw [collapseAux_true_head cs y (Option.mem_def.1 hy)] at hyw
          cases hyw
      · simp only [if_true]
        exact ih true
    · rw [if_neg hw]
      obtain ⟨hmem, hchain⟩ := ih false
      refine ⟨?_, ?_⟩
      · intro x hx hxw
        rcases List.mem_cons.1 hx with rfl | hx
        · exact absurd hxw hw
        · exact hmem x hx hxw
      · rw [List.chain'_cons']
        refine ⟨?_, hchain⟩
        intro y _
        intro ⟨hcw, _⟩
        exact hw hcw

theorem collapse_fix : ∀ t : List Char, normWS t → collapseAux false t = t := by
  intro t
  induction t with
  | nil => intro _; rfl
  | cons c cs ih =>
    intro ⟨hmem, hchain⟩
    rw [collapseAux_cons]
    have htail : normWS cs :=
      ⟨fun x hx hxw => hmem x (List.mem_cons_of_mem _ hx) hxw,
        (List.chain'_cons'.1 hchain).2⟩
    by_cases hw : isWS c = true
    · rw [if_pos hw]
      simp only [Bool.false_eq_true, if_false]
      have hc : c = ' ' := hmem c (List.mem_cons_self _ _) hw
      cases cs with
      | nil => rw [hc]; rfl
      | cons d ds =>
        have hd : isWS d = false := by
          have := (List.chain'_cons'.1 hchain).1 d rfl
          rw [← Bool.not_eq_true]
          intro hdw
          exact this ⟨hw, hdw⟩
        have h1 : collapseAux true (d :: ds) = d :: collapseAux false ds := by
          rw [collapseAux_cons, if_neg (by rw [hd]; simp)]
        have h2 : collapseAux false (d :: ds) = d :: collapseAux false ds := by
          rw [collapseAux_cons, if_neg (by rw [hd]; simp)]
        rw [h1, ← h2, ih htail, hc]
    · rw [if_neg hw, ih htail]

theorem normWS_reverse (t : List Char) (h : normWS t) : normWS t.reverse := by
  obtain ⟨hmem, hchain⟩ := h
  refine ⟨fun c hc => hmem c (List.mem_reverse.1 hc), ?_⟩
  rw [List.chain'_reverse]
  exact hchain.imp (fun a b hab ⟨h1, h2⟩ => hab ⟨h2, h1⟩)

theorem normWS_dropWhile (t : List Char) (h : normWS t) :
    normWS (t.dropWhile isWS) := by
  obtain ⟨hmem, hchain⟩ := h
  exact ⟨fun c hc => hmem c ((List.dropWhile_suffix isWS).sublist.mem hc),
    hchain.suffix (List.dropWhile_suffix isWS)⟩

theorem normWS_stripL (t : List Char) (h : normWS t) : normWS (stripL t) := by
  rw [stripL]
  exact normWS_reverse _ (normWS_dropWhile _ (normWS_reverse _ (normWS_dropWhile _ h)))

theorem normWS_append_dot (t : List Char) (h : normWS t) : normWS (t ++ ['.']) := by
  obtain ⟨hmem, hchain⟩ := h
  refine ⟨?_, ?_⟩
  · intro c hc hcw
    rcases List.mem_append.1 hc with hc | hc
    · exact hmem c hc hcw
    · rcases List.mem_singleton.1 hc with rfl
      cases hcw
  · rw [List.chain'_append]
    refine ⟨hchain, List.chain'_singleton _, ?_⟩
    intro x _ y hy
    have hy' : y = '.' := by
      have hh : (['.'] : List Char).head? = some '.' := rfl
      rw [Option.mem_def, hh] at hy
      exact (Option.some_inj.1 hy).symm
    subst hy'
    intro ⟨_, hdw⟩
    exact absurd hdw (by decide)

theorem stripL_fix (t : List Char)
    (hh : ∀ d, t.head? = some d → isWS d = false)
    (hl : ∀ d, t.getLast? = some d → isWS d = false) : stripL t = t := by
  rw [stripL, dropWhile_self_of_head t hh, dropWhile_self_of_head t.reverse
    (by intro d hd; exact hl d (by rwa [List.head?_reverse] at hd)),
    List.reverse_reverse]

theorem stripL_head (t : List Char) :
    ∀ d, (stripL t).head? = some d → isWS d = false := by
  rw [stripL]
  set a := t.dropWhile isWS with ha
  set b := a.reverse.dropWhile isWS with hb
  intro d hd
  have hbne : b ≠ [] := by
    intro hnil
    rw [hnil] at hd
    cases hd
  have hsplit : a = b.reverse ++ (a.reverse.takeWhile isWS).reverse := by
    conv_lhs => rw [← List.reverse_reverse a]
    conv_lhs => rw [← List.takeWhile_append_dropWhile isWS a.reverse]
    rw [List.reverse_append, hb]
  have hda : a.head? = some d := by
    rw [hsplit, List.head?_append_of_ne_nil _ (by
      intro hnil
      exact hbne (by rw [← List.reverse_reverse b, hnil]; rfl))]
    exact hd
  have := List.head?_dropWhile_not isWS t
  rw [← ha, hda] at this
  exact this

theorem stripL_last (t : List Char) :
    ∀ d, (stripL t).getLast? = some d → isWS d = false := by
  rw [stripL]
  intro d hd
  rw [List.getLast?_reverse] at hd
  have := List.head?_dropWhile_not isWS (t.dropWhile isWS).reverse
  rw [hd] at this
  exact this

theorem endsPunct_concat (t : List Char) : endsPunct (t ++ ['.']) = true := by
  rw [endsPunct, List.getLast?_concat]
  rfl

theorem endsPunct_last_not_ws (t : List Char) (h : endsPunct t = true) :
    ∀ d, t.getLast? = some d → isWS d = false := by
  intro d hd
  rw [endsPunct, hd] at h
  simp only [Bool.or_eq_true, beq_iff_eq] at h
  rcases h with (rfl | rfl) | rfl <;> decide

/-- One whole-word case-insensitive deletion pass at the character-list level. -/
def subL (key t : List Char) : List Char :=
  match key with
  | [] => t
  | k :: ks => subFrom k ks none t

/-- The platform-source removal loop of `clean_description` at the list level. -/
def removeAllL (t : List Char) : List Char :=
  (platformSources.map String.data).foldl (fun d key => subL key d) t

/-- `clean_description` at the character-list level. -/
def cleanL (t : List Char) : List Char :=
  let d2 := stripL (collapseWSL (removeAllL t))
  if !d2.isEmpty && !endsPunct d2 then d2 ++ ['.'] else d2

theorem subWordCI_data (k d : String) : (subWordCI k d).data = subL k.data d.data := by
  cases k with
  | mk dta => cases dta <;> rfl

theorem fold_sub_data : ∀ (keys : List String) (d : String),
    (keys.foldl (fun d src => subWordCI src d) d).data =
      (keys.map String.data).foldl (fun t key => subL key t) d.data := by
  intro keys
  induction keys with
  | nil => intro d; rfl
  | cons k ks ih =>
    intro d
    rw [List.foldl_cons, List.map_cons, List.foldl_cons, ih, subWordCI_data]

theorem clean_description_data (s : String) :
    (clean_description s).data = cleanL s.data := by
  simp only [clean_description, cleanL, removeAllL]
  rw [← fold_sub_data platformSources s]
  by_cases hc : (!(stripL (collapseWSL
      (platformSources.foldl (fun d src => subWordCI src d) s).data)).isEmpty &&
      !endsPunct (stripL (collapseWSL
        (platformSources.foldl (fun d src => subWordCI src d) s).data))) = true
  · rw [if_pos hc, if_pos hc]
  · rw [if_neg hc, if_neg hc]

theorem platformKeys_word : ∀ K ∈ platformSources.map String.data,
    K ≠ [] ∧ ∀ x ∈ K, isWordChar x = true := by decide

theorem wordRuns_subL (K t : List Char) (hne : K ≠ [])
    (hw : ∀ x ∈ K, isWordChar x = true) :
    wordRuns (subL K t) = (wordRuns t).filter (fun r => !ciListEq r K) := by
  cases K with
  | nil => exact absurd rfl hne
  | cons k ks => exact wordRuns_subFrom k ks hw t none rfl

theorem wordRuns_fold_sub : ∀ (keys : List (List Char)),
    (∀ K ∈ keys, K ≠ [] ∧ ∀ x ∈ K, isWordChar x = true) →
    ∀ t : List Char,
      wordRuns (keys.foldl (fun d key => subL key d) t) =
        (wordRuns t).filter (fun r => keys.all (fun K => !ciListEq r K)) := by
  intro keys
  induction keys with
  | nil =>
    intro _ t
    rw [List.foldl_nil]
    simp [List.all_nil]
  | cons K keys ih =>
    intro h t
    rw [List.foldl_cons,
      ih (fun K hK => h K (List.mem_cons_of_mem _ hK)) (subL K t),
      wordRuns_subL K t (h K (List.mem_cons_self _ _)).1
        (h K (List.mem_cons_self _ _)).2,
      List.filter_filter]
    refine List.filter_congr ?_
    intro r _
    simp only [List.all_cons]
    rw [Bool.and_comm]

theorem searchFrom_false_of_runs (k : Char) (ks : List Char)
    (hK : ∀ x ∈ k :: ks, isWordChar x = true) (t : List Char)
    (h : ∀ r ∈ wordRuns t, ciListEq r (k :: ks) = false) :
    searchFrom k ks none t = false := by
  rw [searchFrom_runs k ks hK t none]
  rw [show bOpt none = false from rfl]
  simp only [Bool.false_eq_true, if_false]
  rw [List.any_eq_false]
  intro r hr
  rw [h r hr]
  simp

theorem subL_fix (K t : List Char) (hne : K ≠ [])
    (hw : ∀ x ∈ K, isWordChar x = true)
    (h : ∀ r ∈ wordRuns t, ciListEq r K = false) : subL K t = t := by
  cases K with
  | nil => exact absurd rfl hne
  | cons k ks => exact sub_no_match k ks t none (searchFrom_false_of_runs k ks hw t h)

theorem removeAllL_fix (t : List Char)
    (h : ∀ r ∈ wordRuns t, ∀ K ∈ platformSources.map String.data,
      ciListEq r K = false) :
    removeAllL t = t := by
  rw [removeAllL]
  have main : ∀ (keys : List (List Char)),
      (∀ K ∈ keys, K ≠ [] ∧ ∀ x ∈ K, isWordChar x = true) →
      (∀ r ∈ wordRuns t, ∀ K ∈ keys, ciListEq r K = false) →
      keys.foldl (fun d key => subL key d) t = t := by
    intro keys
    induction keys with
    | nil => intro _ _; rfl
    | cons K keys ih =>
      intro hk hr
      rw [List.foldl_cons,
        subL_fix K t (hk K (List.mem_cons_self _ _)).1
          (hk K (List.mem_cons_self _ _)).2
          (fun r hrr => hr r hrr K (List.mem_cons_self _ _)),
        ih (fun K hK => hk K (List.mem_cons_of_mem _ hK))
          (fun r hrr K hK => hr r hrr K (List.mem_cons_of_mem _ hK))]
  exact main _ platformKeys_word h

theorem wordRuns_cleanL (t : List Char) :
    wordRuns (cleanL t) =
      (wordRuns t).filter
        (fun r => (platformSources.map String.data).all
          (fun K => !ciListEq r K)) := by
  simp only [cleanL]
  have hd2 : wordRuns (stripL (collapseWSL (removeAllL t))) =
      (wordRuns t).filter
        (fun r => (platformSources.map String.data).all
          (fun K => !ciListEq r K)) := by
    rw [wordRuns_stripL, collapseWSL, wordRuns_collapseAux, removeAllL,
      wordRuns_fold_sub _ platformKeys_word]
  by_cases hc : (!(stripL (collapseWSL (removeAllL t))).isEmpty &&
      !endsPunct (stripL (collapseWSL (removeAllL t)))) = true
  · rw [if_pos hc, wordRuns_append_nonword ['.'] (by decide), hd2]
  · rw [if_neg hc, hd2]

theorem cleanL_runs_nomatch (t : List Char) :
    ∀ r ∈ wordRuns (cleanL t), ∀ K ∈ platformSources.map String.data,
      ciListEq r K = false := by
  intro r hr K hK
  rw [wordRuns_cleanL] at hr
  have hall := (List.mem_filter.1 hr).2
  have hK' := List.all_eq_true.1 hall K hK
  rwa [Bool.not_eq_true'] at hK'

theorem cleanL_normWS (t : List Char) : normWS (cleanL t) := by
  simp only [cleanL]
  have h2 : normWS (stripL (collapseWSL (removeAllL t))) :=
    normWS_stripL _ (collapseAux_normWS _ false)
  by_cases hc : (!(stripL (collapseWSL (removeAllL t))).isEmpty &&
      !endsPunct (stripL (collapseWSL (removeAllL t)))) = true
  · rw [if_pos hc]
    exact normWS_append_dot _ h2
  · rw [if_neg hc]
    exact h2

theorem cleanL_head (t : List Char) :
    ∀ d, (cleanL t).head? = some d → isWS d = false := by
  simp only [cleanL]
  by_cases hc : (!(stripL (collapseWSL (removeAllL t))).isEmpty &&
      !endsPunct (stripL (collapseWSL (removeAllL t)))) = true
  · rw [if_pos hc]
    intro d hd
    have hne : stripL (collapseWSL (removeAllL t)) ≠ [] := by
      intro hnil
      rw [hnil] at hc
      simp at hc
    rw [List.head?_append_of_ne_nil _ hne] at hd
    exact stripL_head _ d hd
  · rw [if_neg hc]
    exact stripL_head _

theorem cleanL_last (t : List Char) :
    ∀ d, (cleanL t).getLast? = some d → isWS d = false := by
  simp only [cleanL]
  by_cases hc : (!(stripL (collapseWSL (removeAllL t))).isEmpty &&
      !endsPunct (stripL (collapseWSL (removeAllL t)))) = true
  · rw [if_pos hc]
    intro d hd
    rw [List.getLast?_concat] at hd
    cases Option.some_inj.1 hd
    decide
  · rw [if_neg hc]
    exact stripL_last _

theorem cleanL_cond (t : List Char) :
    (!(cleanL t).isEmpty && !endsPunct (cleanL t)) = false := by
  simp only [cleanL]
  by_cases hc : (!(stripL (collapseWSL (removeAllL t))).isEmpty &&
      !endsPunct (stripL (collapseWSL (removeAllL t)))) = true
  · rw [if_pos hc, endsPunct_concat]
    simp
  · rw [if_neg hc]
    exact Bool.eq_false_iff.mpr hc

theorem cleanL_eq_of_fix (u : List Char) (hrem : removeAllL u = u)
    (hcol : collapseWSL u = u) (hstr : stripL u = u)
    (hcond : (!u.isEmpty && !endsPunct u) = false) : cleanL u = u := by
  simp only [cleanL]
  rw [hrem, hcol, hstr, if_neg (by rw [hcond]; simp)]

theorem cleanL_idem (t : List Char) : cleanL (cleanL t) = cleanL t :=
  cleanL_eq_of_fix (cleanL t)
    (removeAllL_fix _ (cleanL_runs_nomatch t))
    (by rw [collapseWSL]; exact collapse_fix _ (cleanL_normWS t))
    (stripL_fix _ (cleanL_head t) (cleanL_last t))
    (cleanL_cond t)

/-- C8: `clean_description` is idempotent — applying it to its own output
returns that output unchanged: the removal pass finds no whole-word
platform-source match in cleaned text, the whitespace of cleaned text is
already collapsed and stripped, and cleaned nonempty text already ends in
`.`, `!` or `?`. -/
theorem c8_clean_idempotent (s : String) :
    clean_description (clean_description s) = clean_description s := by
  have hext : ∀ a b : String, a.data = b.data → a = b := by
    intro a b hab
    cases a
    cases b
    cases hab
    rfl
  apply hext
  rw [clean_description_data (clean_description s), clean_description_data s,
    cleanL_idem]

end WeeklyReport
